import Mathlib

/-!
Shallow embedding of the structural-extraction and graph-ingestion pipeline
implemented in `src/ingest_structure.py`.

Modelling conventions:
* File contents are represented by their parses: for each scanned file the
  environment supplies the Python AST (`pyAst`), the tree-sitter concrete
  syntax tree (`tsTree`) and the regex lexer output (`jsLex`) that the three
  extractors in the source would obtain from the bytes on disk.  A `none`
  parse models an unreadable file or a parser exception.
* The Neo4j store is modelled as explicit lists of nodes and edges; each
  Cypher `MERGE` becomes an insert-if-absent operation, and `SET` an update.
* Machine-level details (UTF-8 decoding, printing, the global skip counters)
  are outside the claims and are not modelled; everything that feeds a node
  or an edge is.
-/

/-! ## String helpers mirroring the Python primitives used by the source -/

/-- ASCII lower-casing of one character, models `str.lower` on the ASCII
range (the only range exercised by extension tables and decorator names). -/
def lowerChar (c : Char) : Char :=
  if 65 ≤ c.toNat ∧ c.toNat ≤ 90 then Char.ofNat (c.toNat + 32) else c

/-- Models Python `s.lower()`. -/
def lowerStr (s : String) : String := String.mk (s.data.map lowerChar)

/-- ASCII whitespace recognised by `str.strip()`. -/
def isSpaceChar (c : Char) : Bool :=
  c = ' ' || c = '\t' || c = '\n' || c = '\r' || c = '\x0b' || c = '\x0c'

/-- Models Python `s.strip()`. -/
def pyStrip (s : String) : String :=
  String.mk (((s.data.dropWhile isSpaceChar).reverse.dropWhile isSpaceChar).reverse)

/-- Models Python `s.rstrip(";")`. -/
def rstripSemis (s : String) : String :=
  String.mk ((s.data.reverse.dropWhile (fun c => c = ';')).reverse)

/-- Models `s.replace(".", "/")` (single-character pattern, so char-wise). -/
def replaceDots (s : String) : String :=
  String.mk (s.data.map (fun c => if c = '.' then '/' else c))

/-- Joins path components with "/"; this is the shape of every
`os.path.relpath(p, repo_root).replace(os.sep, "/")` value in the source,
where the components are the directory parts below the repo root followed
by the file name. -/
def joinSlash : List String → String
  | [] => ""
  | [x] => x
  | x :: y :: rest => x ++ "/" ++ joinSlash (y :: rest)

/-- Models `os.path.splitext(fname)[1].lower()` for a bare file name (no
directory separators): the extension starts at the last dot, except that a
name consisting only of leading dots before that dot has no extension. -/
def splitextExtLower (fname : String) : String :=
  let cs := (lowerStr fname).data
  if cs.contains '.' then
    let suff := (cs.reverse.takeWhile (fun c => c ≠ '.')).reverse
    let pre := cs.take (cs.length - suff.length - 1)
    if pre.any (fun c => c ≠ '.') then String.mk ('.' :: suff) else ""
  else ""

/-- Models the Python truthiness idiom `x or d` for an optional string `x`:
a missing or empty string falls back to `d`. -/
def pyOrStr (x : Option String) (d : String) : String :=
  match x with
  | some s => if s = "" then d else s
  | none => d

/-- Models `s or ""` applied to a string argument (the empty-string
sentinel kept by the upsert helpers for an unresolved file). -/
def strOrEmpty (s : String) : String := if s = "" then "" else s

/-! ## Canonical extraction records (the dicts built by the parsers) -/

/-- The `file_info` dict: relative path and display name. -/
structure FileInfo where
  path : String
  name : String
  deriving DecidableEq

/-- One entry of the `functions` list. -/
structure FuncInfo where
  name : String
  file : String
  deriving DecidableEq

/-- One entry of the `classes` list. -/
structure ClassInfo where
  name : String
  bases : List String
  file : String
  deriving DecidableEq

/-- One entry of the `function_calls` list.  The source also stores a
`called_file` key that is always `None` at extraction time; it is resolved
only in pass 2, so it is omitted here. -/
structure CallInfo where
  caller : Option String
  caller_file : String
  called : String
  deriving DecidableEq

/-- One entry of the `endpoints` list. -/
structure EndpointInfo where
  name : String
  file : String
  decorator : String
  deriving DecidableEq

/-- The canonical record returned by every extractor. -/
structure ParseResult where
  file : FileInfo
  functions : List FuncInfo
  classes : List ClassInfo
  imports : List String
  function_calls : List CallInfo
  endpoints : List EndpointInfo
  deriving DecidableEq

/-! ## Python AST and the native extractor (`parse_python_file`) -/

/-- Python expressions, restricted to the constructors the extractor
dispatches on (`ast.Name`, `ast.Attribute`, `ast.Call`); every other
expression form is represented by `constant`. -/
inductive PyExpr where
  | name (id : String)
  | attribute (value : PyExpr) (attr : String)
  | call (func : PyExpr) (args : List PyExpr)
  | constant

/-- Python statements, restricted to the forms the extractor dispatches on
(`ast.Import`, `ast.ImportFrom`, `ast.ClassDef`, `ast.FunctionDef`); any
other statement is `exprStmt` of its expressions, or `passStmt`. -/
inductive PyStmt where
  | importStmt (names : List String)
  | importFromStmt (module : String) (names : List String)
  | classDef (cname : String) (bases : List PyExpr) (body : List PyStmt)
  | functionDef (fname : String) (decorators : List PyExpr) (body : List PyStmt)
  | exprStmt (e : PyExpr)
  | passStmt

mutual

/-- All statement nodes in the subtree of one statement, the statement
itself included: the statement-level part of `ast.walk` (the source walks
breadth-first; only the set of visited nodes matters downstream). -/
def walkStmt : PyStmt → List PyStmt
  | .classDef n bs body => .classDef n bs body :: walkStmtList body
  | .functionDef n ds body => .functionDef n ds body :: walkStmtList body
  | s => [s]

/-- Statement-node walk of a list of statements. -/
def walkStmtList : List PyStmt → List PyStmt
  | [] => []
  | s :: ss => walkStmt s ++ walkStmtList ss

end

mutual

/-- All expression nodes in the subtree of one expression, itself
included: the expression-level part of `ast.walk`. -/
def pyWalkExpr : PyExpr → List PyExpr
  | .name i => [.name i]
  | .attribute v a => .attribute v a :: pyWalkExpr v
  | .call f args => .call f args :: (pyWalkExpr f ++ pyWalkExprList args)
  | .constant => [.constant]

/-- Expression-node walk of a list of expressions. -/
def pyWalkExprList : List PyExpr → List PyExpr
  | [] => []
  | e :: es => pyWalkExpr e ++ pyWalkExprList es

end

mutual

/-- All expression nodes anywhere inside one statement's subtree: what
`ast.walk(func_node)` yields beyond the statements (decorators, class
bases, and the expressions of every nested statement). -/
def pyWalkSubExprs : PyStmt → List PyExpr
  | .functionDef _ ds body => pyWalkExprList ds ++ pyWalkSubList body
  | .classDef _ bs body => pyWalkExprList bs ++ pyWalkSubList body
  | .exprStmt e => pyWalkExpr e
  | _ => []

/-- Expression nodes inside a list of statements. -/
def pyWalkSubList : List PyStmt → List PyExpr
  | [] => []
  | s :: ss => pyWalkSubExprs s ++ pyWalkSubList ss

end

/-- The attribute-chain loop of the source (lines 97-104 and 128-135):
collect `attr` fields innermost-first while the node is an `Attribute`,
then prepend the base identifier when the chain ends in a `Name`. -/
def attrChain : PyExpr → List String
  | .attribute v a => attrChain v ++ [a]
  | .name i => [i]
  | _ => []

/-- A plain structural rendering standing in for `ast.dump` (used by the
source only as an opaque fallback name for a non-Name, non-Attribute base
class expression). -/
def pyExprDump : PyExpr → String
  | .name i => "Name(id=" ++ i ++ ")"
  | .attribute v a => "Attribute(value=" ++ pyExprDump v ++ ", attr=" ++ a ++ ")"
  | .call f _ => "Call(func=" ++ pyExprDump f ++ ")"
  | .constant => "Constant()"

/-- Base-class name extraction (source lines 92-106). -/
def pyBaseName (b : PyExpr) : String :=
  match b with
  | .name i => i
  | .attribute v a => String.intercalate "." (attrChain (.attribute v a))
  | e => pyExprDump e

/-- The called-name resolution applied to the `func` of an `ast.Call`
(source lines 124-135): a bare `Name` gives its id, an `Attribute` gives
the dotted chain, anything else gives no name. -/
def callTarget : PyExpr → Option String
  | .name i => some i
  | .attribute v a => some (String.intercalate "." (attrChain (.attribute v a)))
  | _ => none

/-- Endpoint decorators: a call-style decorator whose function is an
attribute with lower-cased name in the HTTP-verb set (source lines
113-118). -/
def decoratorKind (d : PyExpr) : Option String :=
  match d with
  | .call (.attribute _ a) _ =>
      let k := lowerStr a
      if ["get", "post", "put", "delete", "patch"].contains k then some k else none
  | _ => none

/-- Endpoint records contributed by one function definition (the
decorator loop at source lines 112-118). -/
def endpointsOfDef (fname relPath : String) (decorators : List PyExpr) : List EndpointInfo :=
  decorators.filterMap (fun d => (decoratorKind d).map (fun k => ⟨fname, relPath, k⟩))

/-- Import strings contributed by one statement (source lines 82-89):
`ast.Import` gives the alias names, `ast.ImportFrom` prefixes the module
when present (an absent module is the empty string, matching the
`node.module or ""` idiom). -/
def importsOfStmt : PyStmt → List String
  | .importStmt names => names
  | .importFromStmt m names =>
      names.map (fun n => if m = "" then n else m ++ "." ++ n)
  | _ => []

/-- Call records contributed by one function definition: every `ast.Call`
in its subtree whose target resolves to a non-empty name (source lines
120-142). -/
def callsOfDef (fname relPath : String) (d : PyStmt) : List CallInfo :=
  (pyWalkSubExprs d).filterMap (fun e =>
    match e with
    | .call f _ =>
        match callTarget f with
        | some c => if c = "" then none else some ⟨some fname, relPath, c⟩
        | none => none
    | _ => none)

/-- The native Python extractor (source lines 55-151).  `astTree` is
`none` when reading or `ast.parse` fails, in which case the source returns
`None`. -/
def parse_python_file (relPath fname : String) (astTree : Option (List PyStmt)) :
    Option ParseResult :=
  match astTree with
  | none => none
  | some body =>
      let walked := walkStmtList body
      some {
        file := ⟨relPath, fname⟩
        functions := walked.filterMap (fun s =>
          match s with
          | .functionDef n _ _ => some ⟨n, relPath⟩
          | _ => none)
        classes := walked.filterMap (fun s =>
          match s with
          | .classDef n bs _ => some ⟨n, bs.map pyBaseName, relPath⟩
          | _ => none)
        imports := (walked.map importsOfStmt).flatten
        function_calls := (walked.map (fun s =>
          match s with
          | .functionDef n ds b => callsOfDef n relPath (.functionDef n ds b)
          | _ => [])).flatten
        endpoints := (walked.map (fun s =>
          match s with
          | .functionDef n ds _ => endpointsOfDef n relPath ds
          | _ => [])).flatten
      }

/-! ## Tree-sitter CST and the grammar-based extractor (`parse_with_treesitter`) -/

/-- A concrete-syntax-tree node as consumed by the source: its node type,
the decoded text of its span, the child in the "name" field when present,
and its children.  Parent links are recovered during the walk as an
ancestor stack. -/
inductive TSNode where
  | mk (ntype : String) (text : String) (nameField : Option TSNode) (children : List TSNode)

/-- Node type of a tree-sitter node. -/
def TSNode.ntype : TSNode → String
  | .mk t _ _ _ => t

/-- Decoded source text of a tree-sitter node. -/
def TSNode.text : TSNode → String
  | .mk _ x _ _ => x

/-- The child in the field named "name", when the grammar provides one. -/
def TSNode.nameField : TSNode → Option TSNode
  | .mk _ _ nf _ => nf

/-- Children of a tree-sitter node. -/
def TSNode.children : TSNode → List TSNode
  | .mk _ _ _ cs => cs

mutual

/-- The generator `walk` of the source (lines 185-188): pre-order
traversal of the subtree below a node, the node itself excluded.  Each
visited node is paired with its ancestor chain, nearest first, so that the
source's `node.parent` walk can be replayed. -/
def tsWalk : List TSNode → TSNode → List (TSNode × List TSNode)
  | anc, .mk t x nf cs => tsWalkList (.mk t x nf cs :: anc) cs

/-- Traversal of a child list under a fixed ancestor chain. -/
def tsWalkList : List TSNode → List TSNode → List (TSNode × List TSNode)
  | _, [] => []
  | anc, c :: cs => (c, anc) :: (tsWalk anc c ++ tsWalkList anc cs)

end

/-- Node types treated as function definitions by the source. -/
def tsFuncTypes : List String := ["function_declaration", "method_definition", "arrow_function"]

/-- Node types treated as import statements by the source. -/
def tsImportTypes : List String := ["import_statement", "import_clause", "import_declaration"]

/-- Node types treated as class definitions by the source. -/
def tsClassTypes : List String := ["class_declaration", "class_definition"]

/-- Node types treated as call-like nodes by the source. -/
def tsCallTypes : List String := ["call_expression", "call", "member_expression"]

/-- Function-name extraction for a function-like node (source lines
201-216): the "name" field's text when the field exists, else the text of
the first identifier child. -/
def tsFuncName (n : TSNode) : Option String :=
  match n.nameField with
  | some nn => some nn.text
  | none => (n.children.find? (fun c => c.ntype = "identifier")).map TSNode.text

/-- The `node.parent` loop of the source (lines 251-262): scan the node
itself and then its ancestors for the first function-like node and return
its "name" field's text; no such ancestor, or a function node without a
name field, yields no caller. -/
def tsFindCaller : List TSNode → Option String
  | [] => none
  | n :: rest =>
      if tsFuncTypes.contains n.ntype then (n.nameField).map TSNode.text
      else tsFindCaller rest

/-- Base-class names of a class node (source lines 228-237). -/
def tsClassBases (n : TSNode) : List String :=
  (n.children.filter (fun c =>
      ["extends_clause", "heritage_clause", "superclass"].contains c.ntype)).flatMap
    (fun c => (c.children.filter (fun b => b.ntype = "identifier")).map TSNode.text)

/-- The grammar-based extractor (source lines 154-278).  `parserLoaded`
models `LANGUAGE_PARSERS.get(lang_key) is not None`; `tree` is `none` when
reading or parsing throws.  The dispatch over visited nodes follows the
elif chain of the source; the four node-type sets are disjoint, so the
per-category passes below visit exactly the nodes the source's single pass
does. -/
def parse_with_treesitter (parserLoaded : Bool) (relPath fname : String)
    (tree : Option TSNode) : Option ParseResult :=
  if parserLoaded = false then none
  else
    match tree with
    | none => none
    | some root =>
        let visited := tsWalk [] root
        some {
          file := ⟨relPath, fname⟩
          functions := visited.filterMap (fun p =>
            if tsFuncTypes.contains p.1.ntype then
              match tsFuncName p.1 with
              | some f => if f = "" then none else some ⟨f, relPath⟩
              | none => none
            else none)
          classes := visited.filterMap (fun p =>
            if tsClassTypes.contains p.1.ntype then
              let cname := match p.1.nameField with
                | some nn => nn.text
                | none => "UnknownClass"
              some ⟨cname, tsClassBases p.1, relPath⟩
            else none)
          imports := visited.filterMap (fun p =>
            if tsImportTypes.contains p.1.ntype then some (pyStrip p.1.text) else none)
          function_calls := visited.filterMap (fun p =>
            if tsCallTypes.contains p.1.ntype then
              match (p.1.children.find? (fun c => c.ntype = "identifier")).map TSNode.text with
              | some called =>
                  if called = "" then none
                  else
                    match tsFindCaller (p.1 :: p.2) with
                    | some caller =>
                        if caller = "" then none
                        else some ⟨some caller, relPath, called⟩
                    | none => none
              | none => none
            else none)
          endpoints := []
        }

/-! ## Heuristic lexical extractor (`parse_js_like_file`) -/

/-- Results of the four regex scans of the source (lines 297-322), taken
as given data: the declared function names, class names, import strings
(each in first-match order, duplicates already collapsed by the Python
`set`s, modelled by deduplication below) and the called-name occurrences
in match order (duplicates kept, as in the source). -/
structure JsLexOutput where
  functions_found : List String
  classes_found : List String
  imports_found : List String
  called_found : List String

/-- Models `sorted(set(xs))`: distinct elements in ascending order. -/
def sortedSet (xs : List String) : List String :=
  xs.dedup.mergeSort (fun a b => a ≤ b)

/-- The regex-based fallback extractor (source lines 281-338).  `readOk`
models whether the file could be read; the regex matching itself is
abstracted as `lex` (see `JsLexOutput`), and this function performs the
record assembly of source lines 324-338.  Every call site it produces has
an unknown caller (`caller = None` at line 334). -/
def parse_js_like_file (relPath fname : String) (readOk : Bool) (lex : JsLexOutput) :
    Option ParseResult :=
  if readOk = false then none
  else
    some {
      file := ⟨relPath, fname⟩
      functions := (sortedSet lex.functions_found).map (fun n => ⟨n, relPath⟩)
      classes := (sortedSet lex.classes_found).map (fun n => ⟨n, [], relPath⟩)
      imports := sortedSet lex.imports_found
      function_calls := lex.called_found.map (fun n => ⟨none, relPath, n⟩)
      endpoints := []
    }

/-! ## Language routing (`EXT_LANG_MAP`, `parse_any_file`) -/

/-- The extension table of the source (lines 24-31). -/
def EXT_LANG_MAP : List (String × String) :=
  [(".py", "python"), (".js", "javascript"), (".jsx", "javascript"),
   (".ts", "typescript"), (".tsx", "typescript")]

/-- Lookup in the extension table, `EXT_LANG_MAP.get(ext)`. -/
def extLang (ext : String) : Option String :=
  (EXT_LANG_MAP.find? (fun p => p.1 = ext)).map (fun p => p.2)

/-- One file of the scanned tree, with the parses each extraction backend
would produce from its bytes.  `dirParts` are the directory components of
the file below the repo root (so `relPath` is their "/"-join followed by
the file name, which is what `os.path.relpath(...).replace(os.sep, "/")`
yields). -/
structure SourceFile where
  dirParts : List String
  fname : String
  pyAst : Option (List PyStmt)
  tsTree : Option TSNode
  jsRead : Bool
  jsLex : JsLexOutput

/-- The "/"-normalised path of a scanned file relative to the repo root. -/
def relPathOf (f : SourceFile) : String :=
  joinSlash (f.dirParts ++ [f.fname])

/-- The extractor dispatcher (source lines 341-354): route by lowercased
extension; Python goes to the native extractor; otherwise prefer the
grammar-based extractor when a parser is loaded, with the regex extractor
as fallback.  `loadedLangs` models the keys of `LANGUAGE_PARSERS` holding
an actual parser. -/
def parse_any_file (loadedLangs : List String) (f : SourceFile) : Option ParseResult :=
  match extLang (splitextExtLower f.fname) with
  | none => none
  | some lang =>
      if lang = "python" then
        parse_python_file (relPathOf f) f.fname f.pyAst
      else
        match (if loadedLangs.contains lang then
                 parse_with_treesitter (loadedLangs.contains lang) (relPathOf f) f.fname f.tsTree
               else none) with
        | some r => some r
        | none => parse_js_like_file (relPathOf f) f.fname f.jsRead f.jsLex

/-! ## Graph store model and the `GraphIngestor` upserts -/

/-- Key of a Function node: the compound `{name, file}` used by every
`MERGE` on the `Function` label. -/
structure FuncKey where
  name : String
  file : String
  deriving DecidableEq

/-- Key of a Class node: the compound `{name, file}`. -/
structure ClassKey where
  name : String
  file : String
  deriving DecidableEq

/-- Key of an Endpoint node: `{name, file, decorator}`. -/
structure EndpointKey where
  name : String
  file : String
  decorator : String
  deriving DecidableEq

/-- A File node: keyed by `path`; `fname` holds the `name` property, which
is set by `ingest_file` and absent when the node was first created as a
bare edge endpoint. -/
structure FileNode where
  path : String
  fname : Option String
  deriving DecidableEq

/-- The graph store: one list per node label and relationship type. -/
structure Graph where
  files : List FileNode
  functions : List FuncKey
  classes : List ClassKey
  endpoints : List EndpointKey
  defined_in_fun : List (FuncKey × String)
  defined_in_class : List (ClassKey × String)
  importEdges : List (String × String)
  calls : List (FuncKey × FuncKey)
  used_in : List (FuncKey × String)
  handled_by : List (EndpointKey × FuncKey)
  extends_rel : List (ClassKey × ClassKey)
  deriving DecidableEq

/-- The store before any run. -/
def Graph.empty : Graph := ⟨[], [], [], [], [], [], [], [], [], [], []⟩

/-- Cypher `MERGE` on a fully-keyed node or relationship: create only
when absent. -/
def mergeElem [DecidableEq α] (l : List α) (x : α) : List α :=
  if x ∈ l then l else l ++ [x]

/-- MERGE of a File node by path alone (no property set). -/
def mergeFileNode (l : List FileNode) (path : String) : List FileNode :=
  if l.any (fun n => n.path = path) then l else l ++ [⟨path, none⟩]

/-- MERGE of a File node by path followed by `SET f.name` (the body of
`ingest_file`). -/
def upsertFileName (l : List FileNode) (path name : String) : List FileNode :=
  if l.any (fun n => n.path = path) then
    l.map (fun n => if n.path = path then ⟨n.path, some name⟩ else n)
  else l ++ [⟨path, some name⟩]

/-- `GraphIngestor.ingest_file` (source lines 367-376). -/
def ingest_file (g : Graph) (fi : FileInfo) : Graph :=
  { g with files := upsertFileName g.files fi.path fi.name }

/-- `GraphIngestor.ingest_class` (source lines 378-388). -/
def ingest_class (g : Graph) (c : ClassInfo) : Graph :=
  { g with
      classes := mergeElem g.classes ⟨c.name, c.file⟩
      files := mergeFileNode g.files c.file
      defined_in_class := mergeElem g.defined_in_class (⟨c.name, c.file⟩, c.file) }

/-- `GraphIngestor.ingest_function` (source lines 390-400). -/
def ingest_function (g : Graph) (fn : FuncInfo) : Graph :=
  { g with
      functions := mergeElem g.functions ⟨fn.name, fn.file⟩
      files := mergeFileNode g.files fn.file
      defined_in_fun := mergeElem g.defined_in_fun (⟨fn.name, fn.file⟩, fn.file) }

/-- `GraphIngestor.ingest_import` (source lines 402-414); an empty target
is rejected by the `if not to_file_path` guard. -/
def ingest_import (g : Graph) (from_file to_file_path : String) : Graph :=
  if to_file_path = "" then g
  else
    { g with
        files := mergeFileNode (mergeFileNode g.files from_file) to_file_path
        importEdges := mergeElem g.importEdges (from_file, to_file_path) }

/-- `GraphIngestor.ingest_function_call` (source lines 416-428); the
called function node falls back to the empty-string file sentinel via
`called_file or ""`. -/
def ingest_function_call (g : Graph) (caller caller_file called called_file : String) : Graph :=
  { g with
      functions := mergeElem (mergeElem g.functions ⟨caller, caller_file⟩)
        ⟨called, strOrEmpty called_file⟩
      calls := mergeElem g.calls (⟨caller, caller_file⟩, ⟨called, strOrEmpty called_file⟩) }

/-- `GraphIngestor.ingest_function_used_in` (source lines 430-441). -/
def ingest_function_used_in (g : Graph) (called called_file used_in_file : String) : Graph :=
  { g with
      functions := mergeElem g.functions ⟨called, strOrEmpty called_file⟩
      files := mergeFileNode g.files used_in_file
      used_in := mergeElem g.used_in (⟨called, strOrEmpty called_file⟩, used_in_file) }

/-- `GraphIngestor.ingest_endpoint` (source lines 443-454). -/
def ingest_endpoint (g : Graph) (ep : EndpointInfo) : Graph :=
  { g with
      endpoints := mergeElem g.endpoints ⟨ep.name, ep.file, ep.decorator⟩
      functions := mergeElem g.functions ⟨ep.name, ep.file⟩
      handled_by := mergeElem g.handled_by (⟨ep.name, ep.file, ep.decorator⟩, ⟨ep.name, ep.file⟩) }

/-- `GraphIngestor.ingest_class_extends` (source lines 456-468); the
parent's file defaults to the empty-string sentinel. -/
def ingest_class_extends (g : Graph) (child_name child_file parent_name : String)
    (parent_file : Option String) : Graph :=
  { g with
      classes := mergeElem (mergeElem g.classes ⟨child_name, child_file⟩)
        ⟨parent_name, pyOrStr parent_file ""⟩
      extends_rel := mergeElem g.extends_rel
        (⟨child_name, child_file⟩, ⟨parent_name, pyOrStr parent_file ""⟩) }

/-! ## Two-pass ingestion (`run_ingestion`) -/

/-- The symbol table `func_name_to_file`: a Python dict as an association
list; assignment replaces the value of an existing key in place and
appends new keys. -/
abbrev SymTable := List (String × String)

/-- Dict assignment `t[k] = v`. -/
def symInsert (t : SymTable) (k v : String) : SymTable :=
  if t.any (fun p => p.1 = k) then t.map (fun p => if p.1 = k then (k, v) else p)
  else t ++ [(k, v)]

/-- Dict lookup `t.get(k)`. -/
def symLookup (t : SymTable) (k : String) : Option String :=
  (t.find? (fun p => p.1 = k)).map (fun p => p.2)

/-- The degenerate File-only record created in pass 1 when every
extraction tier fails (source lines 500-510). -/
def degenerateRecord (relPath fname : String) : ParseResult :=
  ⟨⟨relPath, fname⟩, [], [], [], [], []⟩

/-- Extraction of one walked file with the degenerate-record fallback, as
performed inside the pass 1 loop. -/
def parseFileOrDeg (loadedLangs : List String) (f : SourceFile) : ParseResult :=
  match parse_any_file loadedLangs f with
  | some p => p
  | none => degenerateRecord (relPathOf f) f.fname

/-- Whether the pass 1 walk keeps a file: its lowercased extension is a
key of `EXT_LANG_MAP` (source line 497). -/
def extRecognized (f : SourceFile) : Bool :=
  (extLang (splitextExtLower f.fname)).isSome

/-- Pass 1 (source lines 493-513): walk the tree in order, parse every
recognized file (degenerate fallback included), accumulate the parsed
records and assign each extracted function into the symbol table. -/
def pass1 (loadedLangs : List String) (files : List SourceFile) :
    List ParseResult × SymTable :=
  files.foldl (fun acc f =>
    if extRecognized f then
      let parsed := parseFileOrDeg loadedLangs f
      (acc.1 ++ [parsed],
       parsed.functions.foldl (fun t fn => symInsert t fn.name fn.file) acc.2)
    else acc) ([], [])

/-- The parsed records accumulated by pass 1, in traversal order. -/
def parsedRecords (loadedLangs : List String) (files : List SourceFile) : List ParseResult :=
  (files.filter extRecognized).map (parseFileOrDeg loadedLangs)

/-- The `(function name, defining file)` assignments performed on the
symbol table during pass 1, in execution order. -/
def funcPairs (loadedLangs : List String) (files : List SourceFile) : List (String × String) :=
  (parsedRecords loadedLangs files).flatMap
    (fun p => p.functions.map (fun fn => (fn.name, fn.file)))

/-- The last assignment to key `k` in a sequence of key-value pairs: the
deterministic collision rule realised by the pass 1 dict updates. -/
def lastAssign (k : String) (ps : List (String × String)) : Option String :=
  ps.foldl (fun acc p => if p.1 = k then some p.2 else acc) none

/-- The probe extensions of the import resolver (source line 543). -/
def probeExts : List String := [".py", ".js", ".ts", ".jsx", ".tsx"]

/-- The cleaned module path of a raw import string (source lines 539-542):
strip whitespace, strip trailing semicolons, strip again, then turn dots
into slashes. -/
def importCandidate (imp : String) : String :=
  replaceDots (pyStrip (rstripSemis (pyStrip imp)))

/-- The import probe loop (source lines 541-547): try each extension in
order against the tree root and keep the first candidate that is a file.
`fsPaths` is the set of repo-relative paths for which `os.path.isfile`
holds; `os.path.relpath(os.path.join(root, p), root)` is `p` for the
normalised candidates built here. -/
def resolveImport (fsPaths : List String) (imp : String) : Option String :=
  (probeExts.find? (fun e => fsPaths.contains (importCandidate imp ++ e))).map
    (fun e => importCandidate imp ++ e)

/-- Resolution of a call site's file in pass 2 (source line 554):
`func_name_to_file.get(fc["called"]) or fc["caller_file"]`. -/
def resolveCalledFile (t : SymTable) (fc : CallInfo) : String :=
  pyOrStr (symLookup t fc.called) fc.caller_file

/-- Pass 2 handling of one class record (source lines 523-528): upsert the
class, then an EXTENDS edge for every non-empty base name (the parent file
is not passed, so it defaults to the empty sentinel). -/
def classStep (g : Graph) (c : ClassInfo) : Graph :=
  c.bases.foldl (fun g b =>
    if b = "" then g else ingest_class_extends g c.name c.file b none)
    (ingest_class g c)

/-- Pass 2 handling of one raw import string (source lines 537-549): a
resolved target yields an IMPORTS edge, an unresolved one is dropped. -/
def importStep (fsPaths : List String) (from_path : String) (g : Graph) (imp : String) : Graph :=
  match resolveImport fsPaths imp with
  | some to_path => ingest_import g from_path to_path
  | none => g

/-- Pass 2 handling of one call record (source lines 552-563): resolve the
called file, emit a CALLS edge only when the caller name is known and
non-empty, and always emit a USED_IN edge. -/
def callStep (symtab : SymTable) (g : Graph) (fc : CallInfo) : Graph :=
  let resolved := resolveCalledFile symtab fc
  let g := match fc.caller with
    | some c => if c = "" then g else ingest_function_call g c fc.caller_file fc.called resolved
    | none => g
  ingest_function_used_in g fc.called resolved fc.caller_file

/-- Pass 2 body for one parsed record (source lines 521-563): upsert the
file, classes with their extends edges, functions, endpoints, resolved
imports, and finally calls and used-in edges. -/
def ingest_parsed (fsPaths : List String) (symtab : SymTable) (g : Graph)
    (p : ParseResult) : Graph :=
  let g1 := ingest_file g p.file
  let g2 := p.classes.foldl classStep g1
  let g3 := p.functions.foldl ingest_function g2
  let g4 := p.endpoints.foldl ingest_endpoint g3
  let g5 := p.imports.foldl (importStep fsPaths p.file.path) g4
  p.function_calls.foldl (callStep symtab) g5

/-- The paths recorded in the store's File nodes. -/
def filePaths (g : Graph) : List String := g.files.map FileNode.path

/-- Every upsert only ever adds to the store: `GSub g gg` states that all
node and edge memberships of `g` survive into `gg` (File nodes by path,
since `ingest_file` may update the name property in place). -/
structure GSub (g gg : Graph) : Prop where
  files : ∀ q ∈ filePaths g, q ∈ filePaths gg
  functions : ∀ x ∈ g.functions, x ∈ gg.functions
  classes : ∀ x ∈ g.classes, x ∈ gg.classes
  endpoints : ∀ x ∈ g.endpoints, x ∈ gg.endpoints
  importEdges : ∀ x ∈ g.importEdges, x ∈ gg.importEdges
  calls : ∀ x ∈ g.calls, x ∈ gg.calls
  used_in : ∀ x ∈ g.used_in, x ∈ gg.used_in
  handled_by : ∀ x ∈ g.handled_by, x ∈ gg.handled_by

/-- The environment of a run: which language keys have a loaded grammar,
the files of the walked tree in traversal order, and the set of
repo-relative paths that exist on disk. -/
structure RepoEnv where
  loadedLangs : List String
  walkFiles : List SourceFile
  fsPaths : List String

/-- `run_ingestion` (source lines 489-563): pass 1 builds the parsed
records and the symbol table; pass 2 ingests each record unless
`dry_run` is set, in which case the loop only prints and the store is
left untouched. -/
def run_ingestion (env : RepoEnv) (g : Graph) (dry_run : Bool) : Graph :=
  let parsedAll := (pass1 env.loadedLangs env.walkFiles).1
  let symtab := (pass1 env.loadedLangs env.walkFiles).2
  parsedAll.foldl (fun g p =>
    if dry_run then g else ingest_parsed env.fsPaths symtab g p) g

/-- Shape invariant of every extraction record for a file with relative
path `rp`: the record's own path, and the file fields of its functions,
classes, call sites and endpoints, are all `rp`. -/
structure GoodRecord (rp : String) (p : ParseResult) : Prop where
  path_eq : p.file.path = rp
  funcs : ∀ fn ∈ p.functions, fn.file = rp
  classes : ∀ c ∈ p.classes, c.file = rp
  calls : ∀ fc ∈ p.function_calls, fc.caller_file = rp
  endpoints : ∀ ep ∈ p.endpoints, ep.file = rp

/-! ## Concrete test inputs -/

/-- An empty regex-scan result. -/
def lexEmptyW : JsLexOutput := ⟨[], [], [], []⟩

/-- The file `a.py` defining `helper`. -/
def aFileW : SourceFile :=
  ⟨[], "a.py", some [.functionDef "helper" [] [.passStmt]], none, false, lexEmptyW⟩

/-- The file `b.py` whose `main` calls `helper()`. -/
def bFileW : SourceFile :=
  ⟨[], "b.py", some [.functionDef "main" [] [.exprStmt (.call (.name "helper") [])]],
   none, false, lexEmptyW⟩

/-- A two-file tree exercising cross-file call resolution. -/
def envW : RepoEnv := ⟨[], [aFileW, bFileW], ["a.py", "b.py"]⟩

/-- First of two files defining a function named `run`. -/
def r1FileW : SourceFile :=
  ⟨[], "r1.py", some [.functionDef "run" [] [.passStmt]], none, false, lexEmptyW⟩

/-- Second of two files defining a function named `run`. -/
def r2FileW : SourceFile :=
  ⟨[], "r2.py", some [.functionDef "run" [] [.passStmt]], none, false, lexEmptyW⟩

/-- A recognized Python file whose read or parse fails (degenerate
record). -/
def degFileW : SourceFile := ⟨[], "c.py", none, none, false, lexEmptyW⟩

/-- A file with an unrecognized extension. -/
def txtFileW : SourceFile := ⟨[], "notes.txt", none, none, false, lexEmptyW⟩

/-- A tree with one broken recognized file and one unrecognized file. -/
def envC4W : RepoEnv := ⟨[], [degFileW, txtFileW], []⟩

/-- A Python file with a `@router.get(...)`-decorated handler. -/
def epFileW : SourceFile :=
  ⟨[], "r.py",
   some [.functionDef "list_items" [.call (.attribute (.name "router") "get") []] [.passStmt]],
   none, false, lexEmptyW⟩

/-- A one-file tree exercising endpoint detection. -/
def envEpW : RepoEnv := ⟨[], [epFileW], []⟩

/-- A record importing `pkg.util` from `pkg/mod.py`. -/
def impWitP : ParseResult := ⟨⟨"pkg/mod.py", "mod.py"⟩, [], [], ["pkg.util"], [], []⟩

/-! ## Generic fold and merge lemmas -/

/-- A property preserved by every step of a fold is preserved by the whole
fold. -/
theorem foldl_pred_pres {α γ : Type} (step : γ → α → γ) (P : γ → Prop)
    (hpres : ∀ g x, P g → P (step g x)) (l : List α) (g : γ) (h : P g) :
    P (l.foldl step g) := by
  induction l generalizing g with
  | nil => exact h
  | cons x xs ih => exact ih (step g x) (hpres g x h)

/-- A property established by the step on some list element, and preserved
by every step, holds after folding over the list. -/
theorem foldl_pred_mem {α γ : Type} (step : γ → α → γ) (P : γ → Prop)
    (hpres : ∀ g x, P g → P (step g x)) (a : α) (hins : ∀ g, P (step g a))
    (l : List α) (ha : a ∈ l) (g : γ) : P (l.foldl step g) := by
  induction l generalizing g with
  | nil => cases ha
  | cons x xs ih =>
      rcases List.mem_cons.mp ha with h | h
      · subst h
        exact foldl_pred_pres step P hpres xs (step g a) (hins g)
      · exact ih h (step g x)

/-- Membership is preserved by `mergeElem`. -/
theorem mem_mergeElem_of_mem {α : Type} [DecidableEq α] {l : List α} {y : α} (x : α)
    (h : y ∈ l) : y ∈ mergeElem l x := by
  unfold mergeElem
  split
  · exact h
  · exact List.mem_append_left _ h

/-- The merged element is a member after `mergeElem`. -/
theorem mem_mergeElem_self {α : Type} [DecidableEq α] (l : List α) (x : α) :
    x ∈ mergeElem l x := by
  unfold mergeElem
  split
  · assumption
  · exact List.mem_append_right _ (List.mem_singleton.mpr rfl)

/-- Elements after `mergeElem` are the old ones or the merged one. -/
theorem mem_of_mem_mergeElem {α : Type} [DecidableEq α] {l : List α} {x y : α}
    (h : y ∈ mergeElem l x) : y ∈ l ∨ y = x := by
  unfold mergeElem at h
  split at h
  · exact Or.inl h
  · rcases List.mem_append.mp h with h | h
    · exact Or.inl h
    · exact Or.inr (List.mem_singleton.mp h)

/-- `mergeElem` keeps a duplicate-free list duplicate-free. -/
theorem nodup_mergeElem {α : Type} [DecidableEq α] {l : List α} (x : α)
    (h : l.Nodup) : (mergeElem l x).Nodup := by
  unfold mergeElem
  split
  · exact h
  · next hx => exact List.nodup_append.mpr ⟨h, List.nodup_singleton x, by
      intro a ha hb
      rw [List.mem_singleton.mp hb] at ha
      exact hx ha⟩

/-- Path membership is preserved by `mergeFileNode`. -/
theorem paths_mergeFileNode_of_mem {l : List FileNode} {q : String} (p : String)
    (h : q ∈ l.map FileNode.path) : q ∈ (mergeFileNode l p).map FileNode.path := by
  unfold mergeFileNode
  split
  · exact h
  · rw [List.map_append]
    exact List.mem_append_left _ h

/-- The merged path is present after `mergeFileNode`. -/
theorem paths_mergeFileNode_self (l : List FileNode) (p : String) :
    p ∈ (mergeFileNode l p).map FileNode.path := by
  unfold mergeFileNode
  split
  · next hp =>
      rcases List.any_eq_true.mp hp with ⟨n, hn, hq⟩
      exact List.mem_map.mpr ⟨n, hn, of_decide_eq_true hq⟩
  · rw [List.map_append]
    exact List.mem_append_right _ (by simp)

/-- Paths after `mergeFileNode` are the old ones or the merged one. -/
theorem paths_of_paths_mergeFileNode {l : List FileNode} {p q : String}
    (h : q ∈ (mergeFileNode l p).map FileNode.path) :
    q ∈ l.map FileNode.path ∨ q = p := by
  unfold mergeFileNode at h
  split at h
  · exact Or.inl h
  · rw [List.map_append] at h
    rcases List.mem_append.mp h with h | h
    · exact Or.inl h
    · simp at h
      exact Or.inr h

/-- `mergeFileNode` keeps the path list duplicate-free. -/
theorem nodup_paths_mergeFileNode {l : List FileNode} (p : String)
    (h : (l.map FileNode.path).Nodup) : ((mergeFileNode l p).map FileNode.path).Nodup := by
  unfold mergeFileNode
  split
  · exact h
  · next hp =>
      rw [List.map_append]
      refine List.nodup_append.mpr ⟨h, by simp, ?_⟩
      intro a ha hb
      simp at hb
      subst hb
      rcases List.mem_map.mp ha with ⟨n, hn, hq⟩
      exact hp (List.any_eq_true.mpr ⟨n, hn, by simp [hq]⟩)

/-- The path list after `upsertFileName`: unchanged when the path already
has a node, extended by the path otherwise. -/
theorem paths_upsertFileName (l : List FileNode) (p n : String) :
    (upsertFileName l p n).map FileNode.path =
      if l.any (fun x => x.path = p) then l.map FileNode.path
      else l.map FileNode.path ++ [p] := by
  unfold upsertFileName
  split
  · rw [List.map_map]
    apply List.map_congr_left
    intro x _
    by_cases hx : x.path = p
    · simp [hx]
    · simp [hx]
  · rw [List.map_append]
    rfl

/-! ## Monotonicity of the upserts -/

/-- `GSub` is reflexive. -/
theorem GSub.refl (g : Graph) : GSub g g :=
  ⟨fun _ h => h, fun _ h => h, fun _ h => h, fun _ h => h,
   fun _ h => h, fun _ h => h, fun _ h => h, fun _ h => h⟩

/-- `GSub` is transitive. -/
theorem GSub.trans {g1 g2 g3 : Graph} (h1 : GSub g1 g2) (h2 : GSub g2 g3) : GSub g1 g3 :=
  ⟨fun q h => h2.files q (h1.files q h),
   fun x h => h2.functions x (h1.functions x h),
   fun x h => h2.classes x (h1.classes x h),
   fun x h => h2.endpoints x (h1.endpoints x h),
   fun x h => h2.importEdges x (h1.importEdges x h),
   fun x h => h2.calls x (h1.calls x h),
   fun x h => h2.used_in x (h1.used_in x h),
   fun x h => h2.handled_by x (h1.handled_by x h)⟩

/-- `ingest_file` only adds. -/
theorem gsub_ingest_file (g : Graph) (fi : FileInfo) : GSub g (ingest_file g fi) := by
  refine ⟨?_, fun x h => h, fun x h => h, fun x h => h, fun x h => h,
    fun x h => h, fun x h => h, fun x h => h⟩
  intro q h
  show q ∈ (upsertFileName g.files fi.path fi.name).map FileNode.path
  rw [paths_upsertFileName]
  split
  · exact h
  · exact List.mem_append_left _ h

/-- `ingest_class` only adds. -/
theorem gsub_ingest_class (g : Graph) (c : ClassInfo) : GSub g (ingest_class g c) :=
  ⟨fun q h => paths_mergeFileNode_of_mem c.file h,
   fun x h => h, fun x h => mem_mergeElem_of_mem _ h, fun x h => h,
   fun x h => h, fun x h => h, fun x h => h, fun x h => h⟩

/-- `ingest_function` only adds. -/
theorem gsub_ingest_function (g : Graph) (fn : FuncInfo) : GSub g (ingest_function g fn) :=
  ⟨fun q h => paths_mergeFileNode_of_mem fn.file h,
   fun x h => mem_mergeElem_of_mem _ h, fun x h => h, fun x h => h,
   fun x h => h, fun x h => h, fun x h => h, fun x h => h⟩

/-- `ingest_import` only adds. -/
theorem gsub_ingest_import (g : Graph) (a b : String) : GSub g (ingest_import g a b) := by
  unfold ingest_import
  split
  · exact GSub.refl g
  · exact ⟨fun q h => paths_mergeFileNode_of_mem b (paths_mergeFileNode_of_mem a h),
      fun x h => h, fun x h => h, fun x h => h,
      fun x h => mem_mergeElem_of_mem _ h, fun x h => h, fun x h => h, fun x h => h⟩

/-- `ingest_function_call` only adds. -/
theorem gsub_ingest_function_call (g : Graph) (a b c d : String) :
    GSub g (ingest_function_call g a b c d) :=
  ⟨fun q h => h,
   fun x h => mem_mergeElem_of_mem _ (mem_mergeElem_of_mem _ h),
   fun x h => h, fun x h => h, fun x h => h,
   fun x h => mem_mergeElem_of_mem _ h, fun x h => h, fun x h => h⟩

/-- `ingest_function_used_in` only adds. -/
theorem gsub_ingest_function_used_in (g : Graph) (a b c : String) :
    GSub g (ingest_function_used_in g a b c) :=
  ⟨fun q h => paths_mergeFileNode_of_mem c h,
   fun x h => mem_mergeElem_of_mem _ h, fun x h => h, fun x h => h,
   fun x h => h, fun x h => h, fun x h => mem_mergeElem_of_mem _ h, fun x h => h⟩

/-- `ingest_endpoint` only adds. -/
theorem gsub_ingest_endpoint (g : Graph) (ep : EndpointInfo) : GSub g (ingest_endpoint g ep) :=
  ⟨fun q h => h, fun x h => mem_mergeElem_of_mem _ h, fun x h => h,
   fun x h => mem_mergeElem_of_mem _ h, fun x h => h, fun x h => h,
   fun x h => h, fun x h => mem_mergeElem_of_mem _ h⟩

/-- `ingest_class_extends` only adds. -/
theorem gsub_ingest_class_extends (g : Graph) (a b c : String) (pf : Option String) :
    GSub g (ingest_class_extends g a b c pf) :=
  ⟨fun q h => h, fun x h => h,
   fun x h => mem_mergeElem_of_mem _ (mem_mergeElem_of_mem _ h),
   fun x h => h, fun x h => h, fun x h => h, fun x h => h, fun x h => h⟩

/-- Folding any sequence of upserts over a list only adds. -/
theorem gsub_foldl {α : Type} (step : Graph → α → Graph)
    (h : ∀ g x, GSub g (step g x)) (l : List α) (g : Graph) :
    GSub g (l.foldl step g) :=
  foldl_pred_pres step (GSub g) (fun g2 x hg => GSub.trans hg (h g2 x)) l g (GSub.refl g)

/-- `classStep` only adds. -/
theorem gsub_classStep (g : Graph) (c : ClassInfo) : GSub g (classStep g c) := by
  unfold classStep
  refine GSub.trans (gsub_ingest_class g c) ?_
  refine foldl_pred_pres _ (GSub (ingest_class g c)) ?_ c.bases _ (GSub.refl _)
  intro g2 b hg
  refine GSub.trans hg ?_
  split
  · exact GSub.refl g2
  · exact gsub_ingest_class_extends g2 c.name c.file b none

/-- `importStep` only adds. -/
theorem gsub_importStep (fs : List String) (fp : String) (g : Graph) (imp : String) :
    GSub g (importStep fs fp g imp) := by
  unfold importStep
  split
  · exact gsub_ingest_import g fp _
  · exact GSub.refl g

/-- `callStep` only adds. -/
theorem gsub_callStep (st : SymTable) (g : Graph) (fc : CallInfo) :
    GSub g (callStep st g fc) := by
  unfold callStep
  refine GSub.trans ?_ (gsub_ingest_function_used_in _ fc.called
    (resolveCalledFile st fc) fc.caller_file)
  cases fc.caller with
  | some c =>
      simp only []
      split
      · exact GSub.refl g
      · exact gsub_ingest_function_call g c fc.caller_file fc.called (resolveCalledFile st fc)
  | none => exact GSub.refl g

/-- The whole pass 2 body for one record only adds. -/
theorem gsub_ingest_parsed (fs : List String) (st : SymTable) (g : Graph) (p : ParseResult) :
    GSub g (ingest_parsed fs st g p) := by
  refine GSub.trans (gsub_ingest_file g p.file) ?_
  refine GSub.trans (gsub_foldl classStep gsub_classStep p.classes (ingest_file g p.file)) ?_
  refine GSub.trans (gsub_foldl ingest_function gsub_ingest_function p.functions _) ?_
  refine GSub.trans (gsub_foldl ingest_endpoint gsub_ingest_endpoint p.endpoints _) ?_
  refine GSub.trans (gsub_foldl (importStep fs p.file.path)
    (gsub_importStep fs p.file.path) p.imports _) ?_
  exact gsub_foldl (callStep st) (gsub_callStep st) p.function_calls _

/-- Pass 2 over a list of records only adds. -/
theorem gsub_run_fold (fs : List String) (st : SymTable) (dry : Bool)
    (ps : List ParseResult) (g : Graph) :
    GSub g (ps.foldl (fun g p => if dry then g else ingest_parsed fs st g p) g) := by
  refine gsub_foldl _ ?_ ps g
  intro g2 p
  split
  · exact GSub.refl g2
  · exact gsub_ingest_parsed fs st g2 p

/-! ## Symbol table lemmas -/

/-- Replacing the value at key `k` does not change lookups of other keys. -/
theorem symLookup_map_replace_ne (t : SymTable) (k v k2 : String) (h : k2 ≠ k) :
    symLookup (t.map (fun p => if p.1 = k then (k, v) else p)) k2 = symLookup t k2 := by
  induction t with
  | nil => rfl
  | cons p ps ih =>
      by_cases hp : p.1 = k
      · rw [List.map_cons, if_pos hp]
        unfold symLookup
        rw [List.find?_cons_of_neg _ (by
            simp only [decide_eq_true_eq]
            exact fun hh => h hh.symm),
          List.find?_cons_of_neg _ (by
            simp only [decide_eq_true_eq]
            exact fun hh => h (hh ▸ hp))]
        exact ih
      · rw [List.map_cons, if_neg hp]
        unfold symLookup
        by_cases hp2 : p.1 = k2
        · rw [List.find?_cons_of_pos _ (by simp [hp2]), List.find?_cons_of_pos _ (by simp [hp2])]
        · rw [List.find?_cons_of_neg _ (by simp [hp2]), List.find?_cons_of_neg _ (by simp [hp2])]
          exact ih

/-- Replacing the value at a key that is present makes lookups of that key
return the new value. -/
theorem symLookup_map_replace_self (t : SymTable) (k v : String)
    (h : t.any (fun p => p.1 = k)) :
    symLookup (t.map (fun p => if p.1 = k then (k, v) else p)) k = some v := by
  induction t with
  | nil => simp at h
  | cons p ps ih =>
      by_cases hp : p.1 = k
      · rw [List.map_cons, if_pos hp]
        unfold symLookup
        rw [List.find?_cons_of_pos _ (by simp)]
        rfl
      · rw [List.map_cons, if_neg hp]
        unfold symLookup
        rw [List.find?_cons_of_neg _ (by simp [hp])]
        simp only [List.any_cons, Bool.or_eq_true, decide_eq_true_eq] at h
        rcases h with h | h
        · exact absurd h hp
        · exact ih (by simpa using h)

/-- Dict lookup after dict assignment (the two cases of `t[k] = v`). -/
theorem symLookup_symInsert (t : SymTable) (k v k2 : String) :
    symLookup (symInsert t k v) k2 = if k2 = k then some v else symLookup t k2 := by
  unfold symInsert
  split
  · next hany =>
      by_cases hk : k2 = k
      · rw [if_pos hk, hk]
        exact symLookup_map_replace_self t k v hany
      · rw [if_neg hk]
        exact symLookup_map_replace_ne t k v k2 hk
  · next hany =>
      by_cases hk : k2 = k
      · subst hk
        rw [if_pos rfl]
        unfold symLookup
        rw [List.find?_append]
        have hnone : t.find? (fun p => p.1 = k2) = none := by
          rw [List.find?_eq_none]
          intro p hp
          simp only [decide_eq_true_eq]
          intro hc
          exact hany (List.any_eq_true.mpr ⟨p, hp, by simp [hc]⟩)
        rw [hnone]
        simp [List.find?]
      · rw [if_neg hk]
        unfold symLookup
        rw [List.find?_append]
        cases hft : t.find? (fun p => p.1 = k2) with
        | some p => simp
        | none =>
            rw [List.find?_cons_of_neg _ (by
              simp only [decide_eq_true_eq]
              exact fun hh => hk hh.symm)]
            simp [List.find?]

/-- Unfolding the fold behind `lastAssign` from an arbitrary start. -/
theorem lastAssign_general (k : String) (ps : List (String × String))
    (acc : Option String) :
    ps.foldl (fun acc p => if p.1 = k then some p.2 else acc) acc =
      (lastAssign k ps).or acc := by
  induction ps generalizing acc with
  | nil => simp [lastAssign]
  | cons p ps ih =>
      show List.foldl _ (if p.1 = k then some p.2 else acc) ps = _
      rw [ih]
      have hcons : lastAssign k (p :: ps) =
          (lastAssign k ps).or (if p.1 = k then some p.2 else none) := by
        show List.foldl _ (if p.1 = k then some p.2 else none) ps = _
        rw [ih]
      rw [hcons]
      cases lastAssign k ps with
      | some w => simp
      | none =>
          by_cases hp : p.1 = k
          · simp [hp]
          · simp [hp]

/-- One-step unfolding of `lastAssign`. -/
theorem lastAssign_cons (k : String) (p : String × String) (ps : List (String × String)) :
    lastAssign k (p :: ps) = (lastAssign k ps).or (if p.1 = k then some p.2 else none) := by
  show List.foldl _ (if p.1 = k then some p.2 else none) ps = _
  rw [lastAssign_general]

/-- Folding dict assignments: the lookup of `k` afterwards is its last
assigned value, or the original binding when `k` was never assigned. -/
theorem symLookup_foldl_symInsert (k : String) (ps : List (String × String)) (t : SymTable) :
    symLookup (ps.foldl (fun t q => symInsert t q.1 q.2) t) k =
      (lastAssign k ps).or (symLookup t k) := by
  induction ps generalizing t with
  | nil => simp [lastAssign]
  | cons p ps ih =>
      show symLookup (List.foldl _ (symInsert t p.1 p.2) ps) k = _
      rw [ih, symLookup_symInsert, lastAssign_cons]
      cases lastAssign k ps with
      | some w => simp
      | none =>
          by_cases hp : p.1 = k
          · simp [hp]
          · have hp2 : ¬(k = p.1) := fun hh => hp hh.symm
            simp [hp, hp2]

/-- A last-assigned value was one of the assigned values for that key. -/
theorem lastAssign_mem (k v : String) (ps : List (String × String))
    (h : lastAssign k ps = some v) : ∃ p ∈ ps, p.1 = k ∧ p.2 = v := by
  induction ps with
  | nil => simp [lastAssign] at h
  | cons p ps ih =>
      rw [lastAssign_cons] at h
      cases hl : lastAssign k ps with
      | some w =>
          rw [hl] at h
          simp only [Option.or_some, Option.some.injEq] at h
          rcases ih (by rw [hl, h]) with ⟨q, hq, h1, h2⟩
          exact ⟨q, List.mem_cons_of_mem p hq, h1, h2⟩
      | none =>
          rw [hl] at h
          simp only [Option.none_or] at h
          by_cases hp : p.1 = k
          · rw [if_pos hp] at h
            exact ⟨p, List.mem_cons_self p ps, hp, Option.some.inj h⟩
          · rw [if_neg hp] at h
            cases h

/-- If some pair assigns key `k`, the last assignment exists. -/
theorem lastAssign_isSome (k : String) (ps : List (String × String))
    (q : String × String) (hq : q ∈ ps) (hk : q.1 = k) :
    ∃ v, lastAssign k ps = some v := by
  induction ps with
  | nil => cases hq
  | cons p ps ih =>
      rw [lastAssign_cons]
      rcases List.mem_cons.mp hq with h | h
      · cases hl : lastAssign k ps with
        | some w => exact ⟨w, rfl⟩
        | none =>
            subst h
            exact ⟨q.2, by rw [if_pos hk]; rfl⟩
      · rcases ih h with ⟨v, hv⟩
        rw [hv]
        exact ⟨v, rfl⟩

/-! ## Structure of pass 1 -/

/-- The pass 1 fold from any accumulator: the parsed records are appended
in traversal order and the symbol table receives every function's
assignment in order. -/
theorem pass1_general (L : List String) (files : List SourceFile)
    (acc : List ParseResult × SymTable) :
    files.foldl (fun acc f =>
      if extRecognized f then
        let parsed := parseFileOrDeg L f
        (acc.1 ++ [parsed],
         parsed.functions.foldl (fun t fn => symInsert t fn.name fn.file) acc.2)
      else acc) acc =
    (acc.1 ++ parsedRecords L files,
     (funcPairs L files).foldl (fun t q => symInsert t q.1 q.2) acc.2) := by
  induction files generalizing acc with
  | nil => simp [parsedRecords, funcPairs]
  | cons f fs ih =>
      rw [List.foldl_cons]
      by_cases hf : extRecognized f
      · rw [ih]
        have hfilter : (f :: fs).filter extRecognized = f :: fs.filter extRecognized :=
          List.filter_cons_of_pos hf
        have hparsed : parsedRecords L (f :: fs) = parseFileOrDeg L f :: parsedRecords L fs := by
          unfold parsedRecords
          rw [hfilter, List.map_cons]
        have hpairs : funcPairs L (f :: fs) =
            (parseFileOrDeg L f).functions.map (fun fn => (fn.name, fn.file)) ++
              funcPairs L fs := by
          unfold funcPairs
          rw [hparsed, List.flatMap_cons]
        rw [hparsed, hpairs]
        simp only [hf, if_true]
        refine Prod.ext ?_ ?_
        · show (acc.1 ++ [parseFileOrDeg L f]) ++ parsedRecords L fs = _
          rw [List.append_assoc]
          rfl
        · show (funcPairs L fs).foldl _ ((parseFileOrDeg L f).functions.foldl _ acc.2) = _
          rw [List.foldl_append, List.foldl_map]
      · rw [ih]
        have hfilter : (f :: fs).filter extRecognized = fs.filter extRecognized :=
          List.filter_cons_of_neg (by simpa using hf)
        have hparsed : parsedRecords L (f :: fs) = parsedRecords L fs := by
          unfold parsedRecords
          rw [hfilter]
        have hpairs : funcPairs L (f :: fs) = funcPairs L fs := by
          unfold funcPairs
          rw [hparsed]
        simp only [hparsed, hpairs, if_neg hf]

/-- Pass 1 computes exactly the parsed records of the recognized files and
the symbol table obtained by folding all function assignments. -/
theorem pass1_eq (L : List String) (files : List SourceFile) :
    pass1 L files =
      (parsedRecords L files,
       (funcPairs L files).foldl (fun t q => symInsert t q.1 q.2) []) := by
  unfold pass1
  rw [pass1_general]
  rfl

/-- The pass 1 symbol table maps each name to its last assignment in
traversal order. -/
theorem symLookup_pass1 (L : List String) (files : List SourceFile) (k : String) :
    symLookup (pass1 L files).2 k = lastAssign k (funcPairs L files) := by
  rw [pass1_eq]
  show symLookup ((funcPairs L files).foldl _ []) k = _
  rw [symLookup_foldl_symInsert]
  show (lastAssign k (funcPairs L files)).or none = _
  rw [Option.or_none]

/-! ## Record shape of the extractors -/

/-- The native Python extractor stamps its own relative path into every
record it produces. -/
theorem good_parse_python (rel fn : String) (astTree : Option (List PyStmt))
    (p : ParseResult) (h : parse_python_file rel fn astTree = some p) :
    GoodRecord rel p := by
  cases astTree with
  | none => cases h
  | some body =>
      simp only [parse_python_file, Option.some.injEq] at h
      subst h
      refine ⟨rfl, ?_, ?_, ?_, ?_⟩
      · intro x hx
        rcases List.mem_filterMap.mp hx with ⟨s, _, hs⟩
        split at hs
        · cases hs; rfl
        · cases hs
      · intro x hx
        rcases List.mem_filterMap.mp hx with ⟨s, _, hs⟩
        split at hs
        · cases hs; rfl
        · cases hs
      · intro x hx
        rcases List.mem_flatten.mp hx with ⟨l, hl, hxl⟩
        rcases List.mem_map.mp hl with ⟨s, _, hs⟩
        subst hs
        split at hxl
        · unfold callsOfDef at hxl
          rcases List.mem_filterMap.mp hxl with ⟨e, _, he⟩
          split at he
          · split at he
            · split at he
              · cases he
              · cases he; rfl
            · cases he
          · cases he
        · cases hxl
      · intro x hx
        rcases List.mem_flatten.mp hx with ⟨l, hl, hxl⟩
        rcases List.mem_map.mp hl with ⟨s, _, hs⟩
        subst hs
        split at hxl
        · unfold endpointsOfDef at hxl
          rcases List.mem_filterMap.mp hxl with ⟨d, _, hd⟩
          cases hk : decoratorKind d with
          | some k => rw [hk] at hd; cases hd; rfl
          | none => rw [hk] at hd; cases hd
        · cases hxl

/-- The grammar-based extractor stamps its own relative path into every
record it produces. -/
theorem good_parse_ts (pl : Bool) (rel fn : String) (tree : Option TSNode)
    (p : ParseResult) (h : parse_with_treesitter pl rel fn tree = some p) :
    GoodRecord rel p := by
  unfold parse_with_treesitter at h
  split at h
  · cases h
  · cases tree with
    | none => cases h
    | some root =>
        simp only [Option.some.injEq] at h
        subst h
        refine ⟨rfl, ?_, ?_, ?_, ?_⟩
        · intro x hx
          rcases List.mem_filterMap.mp hx with ⟨q, _, hq⟩
          split at hq
          · split at hq
            · split at hq
              · cases hq
              · cases hq; rfl
            · cases hq
          · cases hq
        · intro x hx
          rcases List.mem_filterMap.mp hx with ⟨q, _, hq⟩
          split at hq
          · cases hq; rfl
          · cases hq
        · intro x hx
          rcases List.mem_filterMap.mp hx with ⟨q, _, hq⟩
          split at hq
          · split at hq
            · split at hq
              · cases hq
              · split at hq
                · split at hq
                  · cases hq
                  · cases hq; rfl
                · cases hq
            · cases hq
          · cases hq
        · intro x hx
          cases hx

/-- The heuristic lexical extractor stamps its own relative path into
every record it produces. -/
theorem good_parse_js (rel fn : String) (readOk : Bool) (lex : JsLexOutput)
    (p : ParseResult) (h : parse_js_like_file rel fn readOk lex = some p) :
    GoodRecord rel p := by
  unfold parse_js_like_file at h
  split at h
  · cases h
  · simp only [Option.some.injEq] at h
    subst h
    refine ⟨rfl, ?_, ?_, ?_, ?_⟩
    · intro x hx
      rcases List.mem_map.mp hx with ⟨n, _, hn⟩
      cases hn
      rfl
    · intro x hx
      rcases List.mem_map.mp hx with ⟨n, _, hn⟩
      cases hn
      rfl
    · intro x hx
      rcases List.mem_map.mp hx with ⟨n, _, hn⟩
      cases hn
      rfl
    · intro x hx
      cases hx

/-- Whatever tier handled a file, the record carries that file's relative
path everywhere. -/
theorem good_parseFileOrDeg (L : List String) (f : SourceFile) :
    GoodRecord (relPathOf f) (parseFileOrDeg L f) := by
  unfold parseFileOrDeg
  cases hp : parse_any_file L f with
  | none =>
      refine ⟨rfl, ?_, ?_, ?_, ?_⟩ <;> (intro x hx; cases hx)
  | some p =>
      show GoodRecord (relPathOf f) p
      unfold parse_any_file at hp
      split at hp
      · cases hp
      · split at hp
        · exact good_parse_python _ _ _ _ hp
        · split at hp
          · next r hr =>
              cases hp
              split at hr
              · exact good_parse_ts _ _ _ _ _ hr
              · cases hr
          · exact good_parse_js _ _ _ _ _ hp

/-- Every record accumulated by pass 1 is the record of one walked,
extension-recognized file and carries that file's relative path. -/
theorem parsedRecords_shape (L : List String) (files : List SourceFile)
    (p : ParseResult) (hp : p ∈ parsedRecords L files) :
    ∃ f ∈ files, extRecognized f = true ∧ p = parseFileOrDeg L f ∧
      GoodRecord (relPathOf f) p := by
  rcases List.mem_map.mp hp with ⟨f, hf, hpf⟩
  rcases List.mem_filter.mp hf with ⟨hfm, hrec⟩
  exact ⟨f, hfm, hrec, hpf.symm, hpf ▸ good_parseFileOrDeg L f⟩

/-! ## What pass 2 inserts for one record -/

/-- Pass 2 writes a File node for the record's own path. -/
theorem ingest_parsed_filepath_mem (fs : List String) (st : SymTable) (g : Graph)
    (p : ParseResult) : p.file.path ∈ filePaths (ingest_parsed fs st g p) := by
  show p.file.path ∈ filePaths (p.function_calls.foldl (callStep st)
    (p.imports.foldl (importStep fs p.file.path)
      (p.endpoints.foldl ingest_endpoint
        (p.functions.foldl ingest_function
          (p.classes.foldl classStep (ingest_file g p.file))))))
  apply (gsub_foldl (callStep st) (gsub_callStep st) p.function_calls _).files
  apply (gsub_foldl (importStep fs p.file.path) (gsub_importStep fs p.file.path) p.imports _).files
  apply (gsub_foldl ingest_endpoint gsub_ingest_endpoint p.endpoints _).files
  apply (gsub_foldl ingest_function gsub_ingest_function p.functions _).files
  apply (gsub_foldl classStep gsub_classStep p.classes _).files
  show p.file.path ∈ (upsertFileName g.files p.file.path p.file.name).map FileNode.path
  rw [paths_upsertFileName]
  split
  · next h =>
      rcases List.any_eq_true.mp h with ⟨n, hn, hq⟩
      exact List.mem_map.mpr ⟨n, hn, of_decide_eq_true hq⟩
  · exact List.mem_append_right _ (by simp)

/-- Pass 2 upserts a Function node for every extracted function of the
record. -/
theorem ingest_parsed_fun_mem (fs : List String) (st : SymTable) (g : Graph)
    (p : ParseResult) (fn : FuncInfo) (hfn : fn ∈ p.functions) :
    (⟨fn.name, fn.file⟩ : FuncKey) ∈ (ingest_parsed fs st g p).functions := by
  show _ ∈ (p.function_calls.foldl (callStep st)
    (p.imports.foldl (importStep fs p.file.path)
      (p.endpoints.foldl ingest_endpoint
        (p.functions.foldl ingest_function
          (p.classes.foldl classStep (ingest_file g p.file)))))).functions
  apply (gsub_foldl (callStep st) (gsub_callStep st) p.function_calls _).functions
  apply (gsub_foldl (importStep fs p.file.path) (gsub_importStep fs p.file.path) p.imports _).functions
  apply (gsub_foldl ingest_endpoint gsub_ingest_endpoint p.endpoints _).functions
  exact foldl_pred_mem ingest_function
    (fun g2 => (⟨fn.name, fn.file⟩ : FuncKey) ∈ g2.functions)
    (fun g2 x h => (gsub_ingest_function g2 x).functions _ h) fn
    (fun g2 => mem_mergeElem_self _ _) p.functions hfn _

/-- Pass 2 upserts an Endpoint node, its Function node and the HANDLED_BY
edge for every extracted endpoint of the record. -/
theorem ingest_parsed_endpoint_mem (fs : List String) (st : SymTable) (g : Graph)
    (p : ParseResult) (ep : EndpointInfo) (hep : ep ∈ p.endpoints) :
    (⟨ep.name, ep.file, ep.decorator⟩ : EndpointKey) ∈ (ingest_parsed fs st g p).endpoints ∧
    ((⟨ep.name, ep.file, ep.decorator⟩, ⟨ep.name, ep.file⟩) : EndpointKey × FuncKey) ∈
      (ingest_parsed fs st g p).handled_by := by
  have key := (⟨ep.name, ep.file, ep.decorator⟩ : EndpointKey)
  constructor
  · show _ ∈ (p.function_calls.foldl (callStep st)
      (p.imports.foldl (importStep fs p.file.path)
        (p.endpoints.foldl ingest_endpoint
          (p.functions.foldl ingest_function
            (p.classes.foldl classStep (ingest_file g p.file)))))).endpoints
    apply (gsub_foldl (callStep st) (gsub_callStep st) p.function_calls _).endpoints
    apply (gsub_foldl (importStep fs p.file.path) (gsub_importStep fs p.file.path) p.imports _).endpoints
    exact foldl_pred_mem ingest_endpoint
      (fun g2 => (⟨ep.name, ep.file, ep.decorator⟩ : EndpointKey) ∈ g2.endpoints)
      (fun g2 x h => (gsub_ingest_endpoint g2 x).endpoints _ h) ep
      (fun g2 => mem_mergeElem_self _ _) p.endpoints hep _
  · show _ ∈ (p.function_calls.foldl (callStep st)
      (p.imports.foldl (importStep fs p.file.path)
        (p.endpoints.foldl ingest_endpoint
          (p.functions.foldl ingest_function
            (p.classes.foldl classStep (ingest_file g p.file)))))).handled_by
    apply (gsub_foldl (callStep st) (gsub_callStep st) p.function_calls _).handled_by
    apply (gsub_foldl (importStep fs p.file.path) (gsub_importStep fs p.file.path) p.imports _).handled_by
    exact foldl_pred_mem ingest_endpoint
      (fun g2 => ((⟨ep.name, ep.file, ep.decorator⟩, ⟨ep.name, ep.file⟩) :
        EndpointKey × FuncKey) ∈ g2.handled_by)
      (fun g2 x h => (gsub_ingest_endpoint g2 x).handled_by _ h) ep
      (fun g2 => mem_mergeElem_self _ _) p.endpoints hep _

/-- Pass 2 records a USED_IN edge for every call site of the record,
caller known or not. -/
theorem ingest_parsed_used_in_mem (fs : List String) (st : SymTable) (g : Graph)
    (p : ParseResult) (fc : CallInfo) (hfc : fc ∈ p.function_calls) :
    ((⟨fc.called, strOrEmpty (resolveCalledFile st fc)⟩, fc.caller_file) : FuncKey × String) ∈
      (ingest_parsed fs st g p).used_in := by
  show _ ∈ (p.function_calls.foldl (callStep st)
    (p.imports.foldl (importStep fs p.file.path)
      (p.endpoints.foldl ingest_endpoint
        (p.functions.foldl ingest_function
          (p.classes.foldl classStep (ingest_file g p.file)))))).used_in
  refine foldl_pred_mem (callStep st)
    (fun g2 => ((⟨fc.called, strOrEmpty (resolveCalledFile st fc)⟩, fc.caller_file) :
      FuncKey × String) ∈ g2.used_in)
    (fun g2 x h => (gsub_callStep st g2 x).used_in _ h) fc ?_ p.function_calls hfc _
  intro g2
  exact mem_mergeElem_self _ _

/-- Pass 2 records a CALLS edge for every call site of the record whose
caller name is known and non-empty. -/
theorem ingest_parsed_call_mem (fs : List String) (st : SymTable) (g : Graph)
    (p : ParseResult) (fc : CallInfo) (hfc : fc ∈ p.function_calls)
    (c : String) (hc : fc.caller = some c) (hcne : c ≠ "") :
    ((⟨c, fc.caller_file⟩, ⟨fc.called, strOrEmpty (resolveCalledFile st fc)⟩) :
      FuncKey × FuncKey) ∈ (ingest_parsed fs st g p).calls := by
  show _ ∈ (p.function_calls.foldl (callStep st)
    (p.imports.foldl (importStep fs p.file.path)
      (p.endpoints.foldl ingest_endpoint
        (p.functions.foldl ingest_function
          (p.classes.foldl classStep (ingest_file g p.file)))))).calls
  refine foldl_pred_mem (callStep st)
    (fun g2 => ((⟨c, fc.caller_file⟩, ⟨fc.called, strOrEmpty (resolveCalledFile st fc)⟩) :
      FuncKey × FuncKey) ∈ g2.calls)
    (fun g2 x h => (gsub_callStep st g2 x).calls _ h) fc ?_ p.function_calls hfc _
  intro g2
  show _ ∈ (ingest_function_used_in (match fc.caller with
    | some c => if c = "" then g2
        else ingest_function_call g2 c fc.caller_file fc.called (resolveCalledFile st fc)
    | none => g2) fc.called (resolveCalledFile st fc) fc.caller_file).calls
  rw [hc]
  show _ ∈ (if c = "" then g2
    else ingest_function_call g2 c fc.caller_file fc.called (resolveCalledFile st fc)).calls
  rw [if_neg hcne]
  exact mem_mergeElem_self _ _

/-- Pass 2 records an IMPORTS edge for every raw import of the record that
resolves to an existing file. -/
theorem ingest_parsed_import_mem (fs : List String) (st : SymTable) (g : Graph)
    (p : ParseResult) (imp : String) (himp : imp ∈ p.imports)
    (t : String) (ht : resolveImport fs imp = some t) :
    ((p.file.path, t) : String × String) ∈ (ingest_parsed fs st g p).importEdges := by
  have htne : t ≠ "" := by
    unfold resolveImport at ht
    rcases Option.map_eq_some'.mp ht with ⟨e, he, hte⟩
    have hemem : e ∈ probeExts := List.mem_of_find?_eq_some he
    intro h0
    rw [h0] at hte
    have hdata : (importCandidate imp).data ++ e.data = [] := by
      have h2 := congrArg String.data hte
      rwa [String.data_append] at h2
    have hednil : e.data = [] := (List.append_eq_nil.mp hdata).2
    fin_cases hemem <;> exact absurd hednil (by decide)
  show _ ∈ (p.function_calls.foldl (callStep st)
    (p.imports.foldl (importStep fs p.file.path)
      (p.endpoints.foldl ingest_endpoint
        (p.functions.foldl ingest_function
          (p.classes.foldl classStep (ingest_file g p.file)))))).importEdges
  apply (gsub_foldl (callStep st) (gsub_callStep st) p.function_calls _).importEdges
  refine foldl_pred_mem (importStep fs p.file.path)
    (fun g2 => ((p.file.path, t) : String × String) ∈ g2.importEdges)
    (fun g2 x h => (gsub_importStep fs p.file.path g2 x).importEdges _ h) imp ?_ p.imports himp _
  intro g2
  show _ ∈ (importStep fs p.file.path g2 imp).importEdges
  unfold importStep
  rw [ht]
  show _ ∈ (ingest_import g2 p.file.path t).importEdges
  unfold ingest_import
  rw [if_neg htne]
  exact mem_mergeElem_self _ _

/-! ## Relative paths and symbol table values -/

/-- A joined path ending in a non-empty file name is non-empty. -/
theorem joinSlash_append_ne (xs : List String) (x : String) (hx : x ≠ "") :
    joinSlash (xs ++ [x]) ≠ "" := by
  cases xs with
  | nil => simpa [joinSlash] using hx
  | cons a ys =>
      have hcons : ∃ z zs, ys ++ [x] = z :: zs := by
        cases ys with
        | nil => exact ⟨x, [], rfl⟩
        | cons b bs => exact ⟨b, bs ++ [x], rfl⟩
      rcases hcons with ⟨z, zs, hz⟩
      show joinSlash (a :: (ys ++ [x])) ≠ ""
      rw [hz]
      show a ++ "/" ++ joinSlash (z :: zs) ≠ ""
      intro h0
      have hdata := congrArg String.data h0
      rw [String.data_append, String.data_append] at hdata
      rcases List.append_eq_nil.mp hdata with ⟨h1, _⟩
      rcases List.append_eq_nil.mp h1 with ⟨_, h2⟩
      exact absurd h2 (by decide)

/-- A walked file with a non-empty name has a non-empty relative path. -/
theorem relPathOf_ne_empty (f : SourceFile) (h : f.fname ≠ "") : relPathOf f ≠ "" :=
  joinSlash_append_ne f.dirParts f.fname h

/-- Every symbol table assignment of pass 1 stores the relative path of
one walked recognized file. -/
theorem funcPairs_shape (L : List String) (files : List SourceFile)
    (q : String × String) (hq : q ∈ funcPairs L files) :
    ∃ f ∈ files, extRecognized f = true ∧ q.2 = relPathOf f := by
  unfold funcPairs at hq
  rcases List.mem_flatMap.mp hq with ⟨p, hp, hqp⟩
  rcases List.mem_map.mp hqp with ⟨fn, hfn, hfq⟩
  rcases parsedRecords_shape L files p hp with ⟨f, hf, hrec, _, hgood⟩
  refine ⟨f, hf, hrec, ?_⟩
  rw [← hfq]
  exact hgood.funcs fn hfn

/-- When every walked file has a non-empty name, every value stored in the
pass 1 symbol table is non-empty. -/
theorem pass1_values_ne_empty (L : List String) (files : List SourceFile)
    (hne : ∀ f ∈ files, f.fname ≠ "") (k v : String)
    (h : symLookup (pass1 L files).2 k = some v) : v ≠ "" := by
  rw [symLookup_pass1] at h
  rcases lastAssign_mem k v _ h with ⟨q, hq, _, hqv⟩
  rcases funcPairs_shape L files q hq with ⟨f, hf, _, hq2⟩
  rw [← hqv, hq2]
  exact relPathOf_ne_empty f (hne f hf)

/-- Under the same hypothesis, the Python `or` fallback of the resolver
agrees with plain dictionary lookup with default. -/
theorem resolveCalledFile_eq_getD (L : List String) (files : List SourceFile)
    (hne : ∀ f ∈ files, f.fname ≠ "") (fc : CallInfo) :
    resolveCalledFile (pass1 L files).2 fc =
      (symLookup (pass1 L files).2 fc.called).getD fc.caller_file := by
  unfold resolveCalledFile pyOrStr
  cases h : symLookup (pass1 L files).2 fc.called with
  | none => rfl
  | some v =>
      show (if v = "" then fc.caller_file else v) = (some v).getD fc.caller_file
      rw [if_neg (pass1_values_ne_empty L files hne fc.called v h)]
      rfl

/-! ## Per-component frame lemmas -/

/-- A fold whose every step leaves a store component unchanged leaves it
unchanged. -/
theorem foldl_sel_eq {α β : Type} (sel : Graph → β) (step : Graph → α → Graph)
    (l : List α) (h : ∀ g x, x ∈ l → sel (step g x) = sel g) (g : Graph) :
    sel (l.foldl step g) = sel g := by
  induction l generalizing g with
  | nil => rfl
  | cons x xs ih =>
      rw [List.foldl_cons, ih (fun g2 y hy => h g2 y (List.mem_cons_of_mem x hy)),
        h g x (List.mem_cons_self x xs)]

/-- `classStep` does not touch CALLS edges. -/
theorem calls_classStep (g : Graph) (c : ClassInfo) : (classStep g c).calls = g.calls := by
  unfold classStep
  rw [foldl_sel_eq Graph.calls _ c.bases (fun g2 b _ => by split <;> rfl)]
  rfl

/-- `importStep` does not touch CALLS edges. -/
theorem calls_importStep (fsp : List String) (fp : String) (g : Graph) (imp : String) :
    (importStep fsp fp g imp).calls = g.calls := by
  unfold importStep
  split
  · show (ingest_import g fp _).calls = g.calls
    unfold ingest_import
    split <;> rfl
  · rfl

/-- A call record with an unknown caller contributes no CALLS edge. -/
theorem calls_callStep_none (st : SymTable) (g : Graph) (fc : CallInfo)
    (h : fc.caller = none) : (callStep st g fc).calls = g.calls := by
  show (match fc.caller with
    | some c => if c = "" then g
        else ingest_function_call g c fc.caller_file fc.called (resolveCalledFile st fc)
    | none => g).calls = g.calls
  rw [h]

/-- `classStep` does not touch IMPORTS edges. -/
theorem imports_classStep (g : Graph) (c : ClassInfo) :
    (classStep g c).importEdges = g.importEdges := by
  unfold classStep
  rw [foldl_sel_eq Graph.importEdges _ c.bases (fun g2 b _ => by split <;> rfl)]
  rfl

/-- `callStep` does not touch IMPORTS edges. -/
theorem imports_callStep (st : SymTable) (g : Graph) (fc : CallInfo) :
    (callStep st g fc).importEdges = g.importEdges := by
  show (match fc.caller with
    | some c => if c = "" then g
        else ingest_function_call g c fc.caller_file fc.called (resolveCalledFile st fc)
    | none => g).importEdges = g.importEdges
  cases fc.caller with
  | some c =>
      show (if c = "" then g
        else ingest_function_call g c fc.caller_file fc.called (resolveCalledFile st fc)).importEdges
        = g.importEdges
      split <;> rfl
  | none => rfl

/-- An unresolvable import contributes no IMPORTS edge. -/
theorem imports_importStep_none (fsp : List String) (fp : String) (g : Graph) (imp : String)
    (h : resolveImport fsp imp = none) : (importStep fsp fp g imp).importEdges = g.importEdges := by
  unfold importStep
  rw [h]

/-! ## Claims C5, C6, C8, C10 -/

/-- A fold with an identity step is the identity. -/
theorem foldl_id {α γ : Type} (l : List α) (g : γ) : l.foldl (fun g _ => g) g = g := by
  induction l generalizing g with
  | nil => rfl
  | cons x xs ih => rw [List.foldl_cons]; exact ih g

/-- Claim C8: in dry-run mode the second loop only prints, so the graph
store the ingestor is connected to is left exactly as it was; pass 1 does
not depend on the flag at all. -/
theorem claim_C8_dry_run_frame (env : RepoEnv) (g : Graph) :
    run_ingestion env g true = g := by
  show ((pass1 env.loadedLangs env.walkFiles).1).foldl
    (fun g p => if true then g
      else ingest_parsed env.fsPaths (pass1 env.loadedLangs env.walkFiles).2 g p) g = g
  exact foldl_id _ g

/-- Claim C5: every call site produced by the heuristic lexical extractor
has an unknown caller, and ingesting such a record in pass 2 leaves the
CALLS edges of the store untouched, whatever functions or classes the
record declares. -/
theorem claim_C5_heuristic_zero_call_edges (rel fn : String) (ok : Bool) (lex : JsLexOutput)
    (fsp : List String) (st : SymTable) (g : Graph) :
    (parse_js_like_file rel fn ok lex).all
      (fun r => r.function_calls.all (fun fc => fc.caller.isNone)) = true ∧
    (parse_js_like_file rel fn ok lex).elim g.calls
      (fun r => (ingest_parsed fsp st g r).calls) = g.calls := by
  constructor
  · unfold parse_js_like_file
    split
    · rfl
    · simp [List.all_eq_true]
  · cases hp : parse_js_like_file rel fn ok lex with
    | none => rfl
    | some r =>
        have hcallers : ∀ fc ∈ r.function_calls, fc.caller = none := by
          unfold parse_js_like_file at hp
          split at hp
          · cases hp
          · cases hp
            intro fc hfc
            rcases List.mem_map.mp hfc with ⟨n, _, hn⟩
            cases hn
            rfl
        show (r.function_calls.foldl (callStep st)
          (r.imports.foldl (importStep fsp r.file.path)
            (r.endpoints.foldl ingest_endpoint
              (r.functions.foldl ingest_function
                (r.classes.foldl classStep (ingest_file g r.file)))))).calls = g.calls
        rw [foldl_sel_eq Graph.calls (callStep st) r.function_calls
            (fun g2 fc hfc => calls_callStep_none st g2 fc (hcallers fc hfc)),
          foldl_sel_eq Graph.calls _ r.imports
            (fun g2 imp _ => calls_importStep fsp r.file.path g2 imp),
          foldl_sel_eq Graph.calls ingest_endpoint r.endpoints (fun g2 ep _ => rfl),
          foldl_sel_eq Graph.calls ingest_function r.functions (fun g2 x _ => rfl),
          foldl_sel_eq Graph.calls _ r.classes (fun g2 c _ => calls_classStep g2 c)]
        rfl

/-- Claim C10: neither the grammar-based extractor nor the heuristic
lexical extractor ever produces an endpoint record; only the native Python
extractor can. -/
theorem claim_C10_only_native_endpoints (pl : Bool) (rel fn rel2 fn2 : String)
    (tree : Option TSNode) (ok : Bool) (lex : JsLexOutput) :
    (parse_with_treesitter pl rel fn tree).all (fun r => r.endpoints.isEmpty) = true ∧
    (parse_js_like_file rel2 fn2 ok lex).all (fun r => r.endpoints.isEmpty) = true := by
  constructor
  · unfold parse_with_treesitter
    split
    · rfl
    · cases tree <;> rfl
  · unfold parse_js_like_file
    split <;> rfl

/-- Claim C6: each raw import string is stripped of whitespace and
trailing semicolons, its dots become path separators, and the fixed
extension list is probed in order against the tree root; the first
existing candidate yields exactly one IMPORTS edge from the importing
file, and when no candidate exists the record's ingestion leaves the
IMPORTS edges unchanged (and is a total function: no failure path). -/
theorem claim_C6_import_resolution (fsp : List String) (st : SymTable) (g : Graph)
    (p : ParseResult) :
    (∀ imp ∈ p.imports, ∀ t, resolveImport fsp imp = some t →
      (∃ e, probeExts.find?
          (fun e2 => fsp.contains (replaceDots (pyStrip (rstripSemis (pyStrip imp))) ++ e2)) =
            some e ∧
        t = replaceDots (pyStrip (rstripSemis (pyStrip imp))) ++ e ∧ t ∈ fsp) ∧
      (p.file.path, t) ∈ (ingest_parsed fsp st g p).importEdges) ∧
    ((∀ imp ∈ p.imports, resolveImport fsp imp = none) →
      (ingest_parsed fsp st g p).importEdges = g.importEdges) := by
  constructor
  · intro imp himp t ht
    refine ⟨?_, ingest_parsed_import_mem fsp st g p imp himp t ht⟩
    have ht2 := ht
    unfold resolveImport at ht2
    rcases Option.map_eq_some'.mp ht2 with ⟨e, he, hte⟩
    refine ⟨e, ?_, hte.symm, ?_⟩
    · unfold importCandidate at he
      exact he
    · have hpred := List.find?_some he
      rw [← hte]
      unfold importCandidate at hpred
      simpa using hpred
  · intro hall
    show (p.function_calls.foldl (callStep st)
      (p.imports.foldl (importStep fsp p.file.path)
        (p.endpoints.foldl ingest_endpoint
          (p.functions.foldl ingest_function
            (p.classes.foldl classStep (ingest_file g p.file)))))).importEdges = g.importEdges
    rw [foldl_sel_eq Graph.importEdges (callStep st) p.function_calls
        (fun g2 fc _ => imports_callStep st g2 fc),
      foldl_sel_eq Graph.importEdges _ p.imports
        (fun g2 imp himp => imports_importStep_none fsp p.file.path g2 imp (hall imp himp)),
      foldl_sel_eq Graph.importEdges ingest_endpoint p.endpoints (fun g2 ep _ => rfl),
      foldl_sel_eq Graph.importEdges ingest_function p.functions (fun g2 x _ => rfl),
      foldl_sel_eq Graph.importEdges _ p.classes (fun g2 c _ => imports_classStep g2 c)]
    rfl

/-! ## Run-level membership and the Python route -/

/-- A fact established by ingesting some pass 1 record and preserved by
ingesting any record holds of the store after a full (non-dry) run. -/
theorem run_pred_mem (env : RepoEnv) (g : Graph) (P : Graph → Prop)
    (hpres : ∀ g2 p2, P g2 →
      P (ingest_parsed env.fsPaths (pass1 env.loadedLangs env.walkFiles).2 g2 p2))
    (p : ParseResult) (hp : p ∈ parsedRecords env.loadedLangs env.walkFiles)
    (hins : ∀ g2, P (ingest_parsed env.fsPaths (pass1 env.loadedLangs env.walkFiles).2 g2 p)) :
    P (run_ingestion env g false) := by
  have hl : (pass1 env.loadedLangs env.walkFiles).1 = parsedRecords env.loadedLangs env.walkFiles := by
    rw [pass1_eq]
  show P (((pass1 env.loadedLangs env.walkFiles).1).foldl
    (fun g2 p2 => if false then g2
      else ingest_parsed env.fsPaths (pass1 env.loadedLangs env.walkFiles).2 g2 p2) g)
  rw [hl]
  exact foldl_pred_mem _ P (fun g2 p2 h => hpres g2 p2 h) p (fun g2 => hins g2) _ hp g

/-- A record of a walked recognized file is a pass 1 record. -/
theorem mem_parsedRecords (L : List String) (files : List SourceFile) (f : SourceFile)
    (hf : f ∈ files) (hrec : extRecognized f = true) :
    parseFileOrDeg L f ∈ parsedRecords L files :=
  List.mem_map.mpr ⟨f, List.mem_filter.mpr ⟨hf, hrec⟩, rfl⟩

/-- A file routed to the Python language key is handled by the native
Python extractor. -/
theorem parse_any_file_python (L : List String) (f : SourceFile)
    (hext : extLang (splitextExtLower f.fname) = some "python") :
    parse_any_file L f = parse_python_file (relPathOf f) f.fname f.pyAst := by
  unfold parse_any_file
  rw [hext]
  rfl

/-- A defined function of a parsed Python file appears in the record's
function list. -/
theorem python_functions_mem (L : List String) (f : SourceFile) (body : List PyStmt)
    (hext : extLang (splitextExtLower f.fname) = some "python")
    (hast : f.pyAst = some body)
    (n : String) (ds : List PyExpr) (fb : List PyStmt)
    (hdef : PyStmt.functionDef n ds fb ∈ walkStmtList body) :
    (⟨n, relPathOf f⟩ : FuncInfo) ∈ (parseFileOrDeg L f).functions := by
  unfold parseFileOrDeg
  rw [parse_any_file_python L f hext, hast]
  show _ ∈ (walkStmtList body).filterMap _
  exact List.mem_filterMap.mpr ⟨PyStmt.functionDef n ds fb, hdef, rfl⟩

/-- Every endpoint extracted from one function definition of a parsed
Python file appears in the record's endpoint list. -/
theorem python_endpoints_mem (L : List String) (f : SourceFile) (body : List PyStmt)
    (hext : extLang (splitextExtLower f.fname) = some "python")
    (hast : f.pyAst = some body)
    (n : String) (ds : List PyExpr) (fb : List PyStmt)
    (hdef : PyStmt.functionDef n ds fb ∈ walkStmtList body)
    (ep : EndpointInfo) (hep : ep ∈ endpointsOfDef n (relPathOf f) ds) :
    ep ∈ (parseFileOrDeg L f).endpoints := by
  unfold parseFileOrDeg
  rw [parse_any_file_python L f hext, hast]
  show ep ∈ ((walkStmtList body).map _).flatten
  exact List.mem_flatten.mpr ⟨endpointsOfDef n (relPathOf f) ds,
    List.mem_map.mpr ⟨PyStmt.functionDef n ds fb, hdef, rfl⟩, hep⟩

/-- A call expression on a bare name inside a function definition of a
parsed Python file yields a call record with that function as caller. -/
theorem python_calls_mem (L : List String) (f : SourceFile) (body : List PyStmt)
    (hext : extLang (splitextExtLower f.fname) = some "python")
    (hast : f.pyAst = some body)
    (n : String) (ds : List PyExpr) (fb : List PyStmt)
    (hdef : PyStmt.functionDef n ds fb ∈ walkStmtList body)
    (c : String) (hc : c ≠ "") (args : List PyExpr)
    (hcall : PyExpr.call (PyExpr.name c) args ∈ pyWalkSubExprs (PyStmt.functionDef n ds fb)) :
    (⟨some n, relPathOf f, c⟩ : CallInfo) ∈ (parseFileOrDeg L f).function_calls := by
  unfold parseFileOrDeg
  rw [parse_any_file_python L f hext, hast]
  show _ ∈ ((walkStmtList body).map _).flatten
  refine List.mem_flatten.mpr ⟨callsOfDef n (relPathOf f) (PyStmt.functionDef n ds fb),
    List.mem_map.mpr ⟨PyStmt.functionDef n ds fb, hdef, rfl⟩, ?_⟩
  unfold callsOfDef
  refine List.mem_filterMap.mpr ⟨PyExpr.call (PyExpr.name c) args, hcall, ?_⟩
  show (if c = "" then none else some (⟨some n, relPathOf f, c⟩ : CallInfo)) = _
  rw [if_neg hc]

/-- A function pair of any pass 1 record is a symbol table assignment. -/
theorem funcPairs_mem_of (L : List String) (files : List SourceFile) (p : ParseResult)
    (fn : FuncInfo) (hp : p ∈ parsedRecords L files) (hfn : fn ∈ p.functions) :
    (fn.name, fn.file) ∈ funcPairs L files :=
  List.mem_flatMap.mpr ⟨p, hp, List.mem_map.mpr ⟨fn, hfn, rfl⟩⟩

/-- Every symbol table assignment comes from a function of some pass 1
record. -/
theorem funcPairs_inv (L : List String) (files : List SourceFile)
    (q : String × String) (hq : q ∈ funcPairs L files) :
    ∃ p ∈ parsedRecords L files, ∃ fn ∈ p.functions, q = (fn.name, fn.file) := by
  unfold funcPairs at hq
  rcases List.mem_flatMap.mp hq with ⟨p, hp, hqp⟩
  rcases List.mem_map.mp hqp with ⟨fn, hfn, hfq⟩
  exact ⟨p, hp, fn, hfn, hfq.symm⟩

/-- When at least one assignment uses key `k` and every assignment of `k`
stores the same file, the pass 1 symbol table resolves `k` to that file. -/
theorem symLookup_pass1_unique (L : List String) (files : List SourceFile) (k v : String)
    (hex : ∃ q ∈ funcPairs L files, q.1 = k)
    (hall : ∀ q ∈ funcPairs L files, q.1 = k → q.2 = v) :
    symLookup (pass1 L files).2 k = some v := by
  rw [symLookup_pass1]
  rcases hex with ⟨q, hq, hqk⟩
  rcases lastAssign_isSome k _ q hq hqk with ⟨w, hw⟩
  rcases lastAssign_mem k w _ hw with ⟨q2, hq2, hq2k, hq2v⟩
  rw [hw, ← hall q2 hq2 hq2k, hq2v]

/-- The resolved called-file of every call site processed in pass 2 is
non-empty, as is the caller file, when walked files have non-empty
names. -/
theorem resolveCalledFile_ne_empty (L : List String) (files : List SourceFile)
    (hne : ∀ f ∈ files, f.fname ≠ "") (p : ParseResult)
    (hp : p ∈ parsedRecords L files) (fc : CallInfo) (hfc : fc ∈ p.function_calls) :
    resolveCalledFile (pass1 L files).2 fc ≠ "" ∧ fc.caller_file ≠ "" := by
  rcases parsedRecords_shape L files p hp with ⟨f, hf, _, _, hgood⟩
  have hcf : fc.caller_file ≠ "" := by
    rw [hgood.calls fc hfc]
    exact relPathOf_ne_empty f (hne f hf)
  refine ⟨?_, hcf⟩
  unfold resolveCalledFile pyOrStr
  cases h : symLookup (pass1 L files).2 fc.called with
  | none => exact hcf
  | some v =>
      have hv := pass1_values_ne_empty L files hne fc.called v h
      show (if v = "" then fc.caller_file else v) ≠ ""
      rw [if_neg hv]
      exact hv

/-! ## Claims C1, C2, C3, C9 -/

/-- Claim C2: for every raw call site processed in pass 2, the resolved
called file is the symbol table entry for the called name when one
exists and the caller's file otherwise, and a USED_IN edge
`(calledName, resolvedFile) -> callerFile` is recorded whether or not the
caller name is known. -/
theorem claim_C2_call_resolution (env : RepoEnv) (g : Graph)
    (hne : ∀ f ∈ env.walkFiles, f.fname ≠ "")
    (p : ParseResult) (hp : p ∈ parsedRecords env.loadedLangs env.walkFiles)
    (fc : CallInfo) (hfc : fc ∈ p.function_calls) :
    resolveCalledFile (pass1 env.loadedLangs env.walkFiles).2 fc =
      (symLookup (pass1 env.loadedLangs env.walkFiles).2 fc.called).getD fc.caller_file ∧
    ((⟨fc.called, resolveCalledFile (pass1 env.loadedLangs env.walkFiles).2 fc⟩ : FuncKey),
      fc.caller_file) ∈ (run_ingestion env g false).used_in := by
  have hres := resolveCalledFile_ne_empty env.loadedLangs env.walkFiles hne p hp fc hfc
  have hstr : strOrEmpty (resolveCalledFile (pass1 env.loadedLangs env.walkFiles).2 fc) =
      resolveCalledFile (pass1 env.loadedLangs env.walkFiles).2 fc := by
    unfold strOrEmpty
    rw [if_neg hres.1]
  constructor
  · exact resolveCalledFile_eq_getD env.loadedLangs env.walkFiles hne fc
  · refine run_pred_mem env g (fun g2 =>
      ((⟨fc.called, resolveCalledFile (pass1 env.loadedLangs env.walkFiles).2 fc⟩ : FuncKey),
        fc.caller_file) ∈ g2.used_in) ?_ p hp ?_
    · intro g2 p2 h
      exact (gsub_ingest_parsed _ _ g2 p2).used_in _ h
    · intro g2
      have h := ingest_parsed_used_in_mem env.fsPaths
        (pass1 env.loadedLangs env.walkFiles).2 g2 p fc hfc
      rwa [hstr] at h

/-- Claim C9: every resolved called-file handed to the CALLS and USED_IN
upserts during a run over files with non-empty names is a non-empty
string, the caller file is a non-empty relative path, and the upsert
functions' empty-string sentinel is the identity on these values (the
unresolved-file branch is never taken). -/
theorem claim_C9_sentinel_unused (env : RepoEnv)
    (hne : ∀ f ∈ env.walkFiles, f.fname ≠ "")
    (p : ParseResult) (hp : p ∈ parsedRecords env.loadedLangs env.walkFiles)
    (fc : CallInfo) (hfc : fc ∈ p.function_calls) :
    resolveCalledFile (pass1 env.loadedLangs env.walkFiles).2 fc ≠ "" ∧
    fc.caller_file ≠ "" ∧
    strOrEmpty (resolveCalledFile (pass1 env.loadedLangs env.walkFiles).2 fc) =
      resolveCalledFile (pass1 env.loadedLangs env.walkFiles).2 fc := by
  have hres := resolveCalledFile_ne_empty env.loadedLangs env.walkFiles hne p hp fc hfc
  refine ⟨hres.1, hres.2, ?_⟩
  unfold strOrEmpty
  rw [if_neg hres.1]

/-- Claim C3: when files defining a function name collide, the pass 1
symbol table holds exactly one entry for that name, its value is the path
of one of the colliding files, and the entry is characterised by the
deterministic last-assignment-in-traversal-order rule, so identical
traversals yield identical resolutions. -/
theorem claim_C3_collision_determinism (L : List String) (files : List SourceFile)
    (f1 f2 : SourceFile) (h1 : f1 ∈ files) (hrec1 : extRecognized f1 = true)
    (nme : String) (fn1 : FuncInfo) (hfn1 : fn1 ∈ (parseFileOrDeg L f1).functions)
    (hfn1n : fn1.name = nme)
    (hall : ∀ f ∈ files, ∀ fn ∈ (parseFileOrDeg L f).functions, fn.name = nme →
      fn.file = relPathOf f1 ∨ fn.file = relPathOf f2) :
    ∃ v, symLookup (pass1 L files).2 nme = some v ∧
      (v = relPathOf f1 ∨ v = relPathOf f2) ∧
      symLookup (pass1 L files).2 nme = lastAssign nme (funcPairs L files) := by
  have hex : ∃ q ∈ funcPairs L files, q.1 = nme :=
    ⟨(fn1.name, fn1.file),
      funcPairs_mem_of L files _ fn1 (mem_parsedRecords L files f1 h1 hrec1) hfn1, hfn1n⟩
  rcases hex with ⟨q, hq, hqk⟩
  rcases lastAssign_isSome nme _ q hq hqk with ⟨w, hw⟩
  rcases lastAssign_mem nme w _ hw with ⟨q2, hq2, hq2k, hq2v⟩
  rcases funcPairs_inv L files q2 hq2 with ⟨p, hp, fn, hfn, hqfn⟩
  rcases parsedRecords_shape L files p hp with ⟨f3, hf3, _, hpf3, _⟩
  have hfn_name : fn.name = nme := by
    have hq21 : q2.1 = fn.name := by rw [hqfn]
    rw [← hq21, hq2k]
  have hor : fn.file = relPathOf f1 ∨ fn.file = relPathOf f2 := by
    refine hall f3 hf3 fn ?_ hfn_name
    rw [← hpf3]
    exact hfn
  have hwfile : w = fn.file := by
    have hq22 : q2.2 = fn.file := by rw [hqfn]
    rw [← hq2v, hq22]
  refine ⟨w, ?_, by rw [hwfile]; exact hor, ?_⟩
  · rw [symLookup_pass1, hw]
  · rw [symLookup_pass1]

/-- Claim C1: when one walked Python file at path `a.py` defines `helper`,
another at `b.py` defines `main` whose subtree calls `helper()`, and no
pass 1 record attributes a function named `helper` to any other file, a
full run upserts both Function nodes, the CALLS edge from
`main@b.py` to `helper@a.py`, and the USED_IN edge `helper@a.py -> b.py`. -/
theorem claim_C1_resolution_example (env : RepoEnv) (g : Graph)
    (a b : SourceFile) (ha : a ∈ env.walkFiles) (hb : b ∈ env.walkFiles)
    (haext : extLang (splitextExtLower a.fname) = some "python")
    (hbext : extLang (splitextExtLower b.fname) = some "python")
    (hapath : relPathOf a = "a.py") (hbpath : relPathOf b = "b.py")
    (bodyA bodyB : List PyStmt) (haast : a.pyAst = some bodyA) (hbast : b.pyAst = some bodyB)
    (dsH : List PyExpr) (bH : List PyStmt)
    (hH : PyStmt.functionDef "helper" dsH bH ∈ walkStmtList bodyA)
    (dsM : List PyExpr) (bM : List PyStmt)
    (hM : PyStmt.functionDef "main" dsM bM ∈ walkStmtList bodyB)
    (args : List PyExpr)
    (hCall : PyExpr.call (PyExpr.name "helper") args ∈
      pyWalkSubExprs (PyStmt.functionDef "main" dsM bM))
    (huniq : ∀ f ∈ env.walkFiles, ∀ fn ∈ (parseFileOrDeg env.loadedLangs f).functions,
      fn.name = "helper" → fn.file = "a.py") :
    (⟨"helper", "a.py"⟩ : FuncKey) ∈ (run_ingestion env g false).functions ∧
    (⟨"main", "b.py"⟩ : FuncKey) ∈ (run_ingestion env g false).functions ∧
    ((⟨"main", "b.py"⟩, ⟨"helper", "a.py"⟩) : FuncKey × FuncKey) ∈
      (run_ingestion env g false).calls ∧
    ((⟨"helper", "a.py"⟩, "b.py") : FuncKey × String) ∈ (run_ingestion env g false).used_in := by
  have hrecA : extRecognized a = true := by
    unfold extRecognized
    rw [haext]
    rfl
  have hrecB : extRecognized b = true := by
    unfold extRecognized
    rw [hbext]
    rfl
  have hpa : parseFileOrDeg env.loadedLangs a ∈ parsedRecords env.loadedLangs env.walkFiles :=
    mem_parsedRecords env.loadedLangs env.walkFiles a ha hrecA
  have hpb : parseFileOrDeg env.loadedLangs b ∈ parsedRecords env.loadedLangs env.walkFiles :=
    mem_parsedRecords env.loadedLangs env.walkFiles b hb hrecB
  have hfnA : (⟨"helper", "a.py"⟩ : FuncInfo) ∈ (parseFileOrDeg env.loadedLangs a).functions := by
    have h := python_functions_mem env.loadedLangs a bodyA haext haast "helper" dsH bH hH
    rwa [hapath] at h
  have hfnB : (⟨"main", "b.py"⟩ : FuncInfo) ∈ (parseFileOrDeg env.loadedLangs b).functions := by
    have h := python_functions_mem env.loadedLangs b bodyB hbext hbast "main" dsM bM hM
    rwa [hbpath] at h
  have hfc : (⟨some "main", "b.py", "helper"⟩ : CallInfo) ∈
      (parseFileOrDeg env.loadedLangs b).function_calls := by
    have h := python_calls_mem env.loadedLangs b bodyB hbext hbast "main" dsM bM hM
      "helper" (by decide) args hCall
    rwa [hbpath] at h
  have hlook : symLookup (pass1 env.loadedLangs env.walkFiles).2 "helper" = some "a.py" := by
    refine symLookup_pass1_unique env.loadedLangs env.walkFiles "helper" "a.py"
      ⟨("helper", "a.py"), funcPairs_mem_of env.loadedLangs env.walkFiles _ _ hpa hfnA, rfl⟩ ?_
    intro q hq hqk
    rcases funcPairs_inv env.loadedLangs env.walkFiles q hq with ⟨p2, hp2, fn2, hfn2, hq2⟩
    rcases parsedRecords_shape env.loadedLangs env.walkFiles p2 hp2 with ⟨f2, hf2, _, hpf2, _⟩
    have hname : fn2.name = "helper" := by
      have : q.1 = fn2.name := by rw [hq2]
      rw [← this, hqk]
    have : fn2.file = "a.py" := by
      refine huniq f2 hf2 fn2 ?_ hname
      rw [← hpf2]
      exact hfn2
    rw [hq2]
    exact this
  have hresolved : resolveCalledFile (pass1 env.loadedLangs env.walkFiles).2
      (⟨some "main", "b.py", "helper"⟩ : CallInfo) = "a.py" := by
    unfold resolveCalledFile pyOrStr
    rw [hlook]
    rfl
  have hstr : strOrEmpty (resolveCalledFile (pass1 env.loadedLangs env.walkFiles).2
      (⟨some "main", "b.py", "helper"⟩ : CallInfo)) = "a.py" := by
    rw [hresolved]
    rfl
  refine ⟨?_, ?_, ?_, ?_⟩
  · refine run_pred_mem env g (fun g2 => (⟨"helper", "a.py"⟩ : FuncKey) ∈ g2.functions)
      (fun g2 p2 h => (gsub_ingest_parsed _ _ g2 p2).functions _ h) _ hpa (fun g2 => ?_)
    exact ingest_parsed_fun_mem _ _ g2 _ _ hfnA
  · refine run_pred_mem env g (fun g2 => (⟨"main", "b.py"⟩ : FuncKey) ∈ g2.functions)
      (fun g2 p2 h => (gsub_ingest_parsed _ _ g2 p2).functions _ h) _ hpb (fun g2 => ?_)
    exact ingest_parsed_fun_mem _ _ g2 _ _ hfnB
  · refine run_pred_mem env g
      (fun g2 => ((⟨"main", "b.py"⟩, ⟨"helper", "a.py"⟩) : FuncKey × FuncKey) ∈ g2.calls)
      (fun g2 p2 h => (gsub_ingest_parsed _ _ g2 p2).calls _ h) _ hpb (fun g2 => ?_)
    have h := ingest_parsed_call_mem env.fsPaths (pass1 env.loadedLangs env.walkFiles).2 g2
      (parseFileOrDeg env.loadedLangs b) (⟨some "main", "b.py", "helper"⟩ : CallInfo) hfc
      "main" rfl (by decide)
    rwa [hstr] at h
  · refine run_pred_mem env g
      (fun g2 => ((⟨"helper", "a.py"⟩, "b.py") : FuncKey × String) ∈ g2.used_in)
      (fun g2 p2 h => (gsub_ingest_parsed _ _ g2 p2).used_in _ h) _ hpb (fun g2 => ?_)
    have h := ingest_parsed_used_in_mem env.fsPaths (pass1 env.loadedLangs env.walkFiles).2 g2
      (parseFileOrDeg env.loadedLangs b) (⟨some "main", "b.py", "helper"⟩ : CallInfo) hfc
    rwa [hstr] at h

/-! ## Claim C7: endpoint detection -/

/-- `classStep` does not touch Endpoint nodes. -/
theorem endpoints_classStep (g : Graph) (c : ClassInfo) :
    (classStep g c).endpoints = g.endpoints := by
  unfold classStep
  rw [foldl_sel_eq Graph.endpoints _ c.bases (fun g2 b _ => by split <;> rfl)]
  rfl

/-- `importStep` does not touch Endpoint nodes. -/
theorem endpoints_importStep (fsp : List String) (fp : String) (g : Graph) (imp : String) :
    (importStep fsp fp g imp).endpoints = g.endpoints := by
  unfold importStep
  split
  · show (ingest_import g fp _).endpoints = g.endpoints
    unfold ingest_import
    split <;> rfl
  · rfl

/-- `callStep` does not touch Endpoint nodes. -/
theorem endpoints_callStep (st : SymTable) (g : Graph) (fc : CallInfo) :
    (callStep st g fc).endpoints = g.endpoints := by
  show (match fc.caller with
    | some c => if c = "" then g
        else ingest_function_call g c fc.caller_file fc.called (resolveCalledFile st fc)
    | none => g).endpoints = g.endpoints
  cases fc.caller with
  | some c =>
      show (if c = "" then g
        else ingest_function_call g c fc.caller_file fc.called (resolveCalledFile st fc)).endpoints
        = g.endpoints
      split <;> rfl
  | none => rfl

/-- Pass 2 keeps the Endpoint node list duplicate-free. -/
theorem nodup_endpoints_ingest_parsed (fs : List String) (st : SymTable) (g : Graph)
    (p : ParseResult) (h : g.endpoints.Nodup) : (ingest_parsed fs st g p).endpoints.Nodup := by
  show ((p.function_calls.foldl (callStep st)
    (p.imports.foldl (importStep fs p.file.path)
      (p.endpoints.foldl ingest_endpoint
        (p.functions.foldl ingest_function
          (p.classes.foldl classStep (ingest_file g p.file))))))).endpoints.Nodup
  rw [foldl_sel_eq Graph.endpoints (callStep st) p.function_calls
      (fun g2 fc _ => endpoints_callStep st g2 fc),
    foldl_sel_eq Graph.endpoints (importStep fs p.file.path) p.imports
      (fun g2 imp _ => endpoints_importStep fs p.file.path g2 imp)]
  refine foldl_pred_pres ingest_endpoint (fun g2 => g2.endpoints.Nodup)
    (fun g2 ep h2 => nodup_mergeElem _ h2) p.endpoints _ ?_
  show (p.functions.foldl ingest_function
    (p.classes.foldl classStep (ingest_file g p.file))).endpoints.Nodup
  rw [foldl_sel_eq Graph.endpoints ingest_function p.functions (fun g2 x _ => rfl),
    foldl_sel_eq Graph.endpoints classStep p.classes (fun g2 c _ => endpoints_classStep g2 c)]
  exact h

/-- A full run from a store with duplicate-free Endpoint nodes keeps them
duplicate-free. -/
theorem nodup_endpoints_run (env : RepoEnv) (g : Graph) (h : g.endpoints.Nodup) :
    (run_ingestion env g false).endpoints.Nodup := by
  show (((pass1 env.loadedLangs env.walkFiles).1).foldl
    (fun g2 p2 => if false then g2
      else ingest_parsed env.fsPaths (pass1 env.loadedLangs env.walkFiles).2 g2 p2) g).endpoints.Nodup
  exact foldl_pred_pres _ (fun g2 => g2.endpoints.Nodup)
    (fun g2 p2 hh => nodup_endpoints_ingest_parsed _ _ g2 p2 hh) _ g h

/-- The endpoints contributed by one function definition are exactly the
images of its matching decorators. -/
theorem endpointsOfDef_eq (n rel : String) (ds : List PyExpr) :
    endpointsOfDef n rel ds =
      (ds.filterMap decoratorKind).map (fun k => (⟨n, rel, k⟩ : EndpointInfo)) := by
  unfold endpointsOfDef
  rw [List.map_filterMap]

/-- A matched decorator kind is one of the five HTTP verbs. -/
theorem decoratorKind_mem (d : PyExpr) (k : String) (h : decoratorKind d = some k) :
    ["get", "post", "put", "delete", "patch"].contains k = true := by
  unfold decoratorKind at h
  split at h
  · next v a args =>
      by_cases hC : ["get", "post", "put", "delete", "patch"].contains (lowerStr a) = true
      · have h2 : (if ["get", "post", "put", "delete", "patch"].contains (lowerStr a) = true
            then some (lowerStr a) else none) = some k := h
        rw [if_pos hC] at h2
        cases h2
        exact hC
      · have h2 : (if ["get", "post", "put", "delete", "patch"].contains (lowerStr a) = true
            then some (lowerStr a) else none) = some k := h
        rw [if_neg hC] at h2
        cases h2
  · cases h

/-- Claim C7: a function definition in a parsed Python file carrying
exactly one call-style decorator whose attribute name lower-cases to one
of the five HTTP verbs yields exactly one endpoint record with that
handler kind, exactly one Endpoint node after a full run from an empty
store, and a HANDLED_BY edge to the Function node; a definition with no
matching decorator yields no endpoint record. -/
theorem claim_C7_endpoint_detection (env : RepoEnv) (f : SourceFile) (hf : f ∈ env.walkFiles)
    (hext : extLang (splitextExtLower f.fname) = some "python")
    (body : List PyStmt) (hast : f.pyAst = some body)
    (n : String) (ds : List PyExpr) (fb : List PyStmt)
    (hdef : PyStmt.functionDef n ds fb ∈ walkStmtList body) (k : String) :
    (ds.filterMap decoratorKind = [k] →
      ["get", "post", "put", "delete", "patch"].contains k = true ∧
      endpointsOfDef n (relPathOf f) ds = [⟨n, relPathOf f, k⟩] ∧
      (run_ingestion env Graph.empty false).endpoints.count ⟨n, relPathOf f, k⟩ = 1 ∧
      ((⟨n, relPathOf f, k⟩, ⟨n, relPathOf f⟩) : EndpointKey × FuncKey) ∈
        (run_ingestion env Graph.empty false).handled_by) ∧
    (ds.filterMap decoratorKind = [] → endpointsOfDef n (relPathOf f) ds = []) := by
  constructor
  · intro hfm
    have hrec : extRecognized f = true := by
      unfold extRecognized
      rw [hext]
      rfl
    have hkmem : ["get", "post", "put", "delete", "patch"].contains k = true := by
      have hk : k ∈ ds.filterMap decoratorKind := by
        rw [hfm]
        exact List.mem_singleton.mpr rfl
      rcases List.mem_filterMap.mp hk with ⟨d, _, hd⟩
      exact decoratorKind_mem d k hd
    have hepdef : endpointsOfDef n (relPathOf f) ds = [⟨n, relPathOf f, k⟩] := by
      rw [endpointsOfDef_eq, hfm]
      rfl
    have hep : (⟨n, relPathOf f, k⟩ : EndpointInfo) ∈ (parseFileOrDeg env.loadedLangs f).endpoints := by
      refine python_endpoints_mem env.loadedLangs f body hext hast n ds fb hdef _ ?_
      rw [hepdef]
      exact List.mem_singleton.mpr rfl
    have hpa : parseFileOrDeg env.loadedLangs f ∈ parsedRecords env.loadedLangs env.walkFiles :=
      mem_parsedRecords env.loadedLangs env.walkFiles f hf hrec
    have hmem : (⟨n, relPathOf f, k⟩ : EndpointKey) ∈
        (run_ingestion env Graph.empty false).endpoints ∧
        ((⟨n, relPathOf f, k⟩, ⟨n, relPathOf f⟩) : EndpointKey × FuncKey) ∈
          (run_ingestion env Graph.empty false).handled_by := by
      refine run_pred_mem env Graph.empty (fun g2 =>
        (⟨n, relPathOf f, k⟩ : EndpointKey) ∈ g2.endpoints ∧
        ((⟨n, relPathOf f, k⟩, ⟨n, relPathOf f⟩) : EndpointKey × FuncKey) ∈ g2.handled_by)
        ?_ _ hpa ?_
      · intro g2 p2 h
        exact ⟨(gsub_ingest_parsed _ _ g2 p2).endpoints _ h.1,
          (gsub_ingest_parsed _ _ g2 p2).handled_by _ h.2⟩
      · intro g2
        exact ingest_parsed_endpoint_mem env.fsPaths
          (pass1 env.loadedLangs env.walkFiles).2 g2 _ _ hep
    refine ⟨hkmem, hepdef, ?_, hmem.2⟩
    exact List.count_eq_one_of_mem (nodup_endpoints_run env Graph.empty List.nodup_nil) hmem.1
  · intro hfm
    rw [endpointsOfDef_eq, hfm]
    rfl

/-! ## Claim C4: file coverage -/

/-- Fold upper bound: any path present afterwards was present before or
was contributed by some list element. -/
theorem foldl_paths_subset {α : Type} (step : Graph → α → Graph) (news : α → String → Prop)
    (h : ∀ g x q, q ∈ filePaths (step g x) → q ∈ filePaths g ∨ news x q)
    (l : List α) (g : Graph) (q : String) (hq : q ∈ filePaths (l.foldl step g)) :
    q ∈ filePaths g ∨ ∃ x ∈ l, news x q := by
  induction l generalizing g with
  | nil => exact Or.inl hq
  | cons x xs ih =>
      rcases ih (step g x) hq with h2 | ⟨y, hy, hn⟩
      · rcases h g x q h2 with h3 | hn
        · exact Or.inl h3
        · exact Or.inr ⟨x, List.mem_cons_self x xs, hn⟩
      · exact Or.inr ⟨y, List.mem_cons_of_mem x hy, hn⟩

/-- The inner CALLS part of `callStep` does not create File nodes. -/
theorem files_callStep_inner (st : SymTable) (g : Graph) (fc : CallInfo) :
    (match fc.caller with
      | some c => if c = "" then g
          else ingest_function_call g c fc.caller_file fc.called (resolveCalledFile st fc)
      | none => g).files = g.files := by
  cases fc.caller with
  | some c =>
      show (if c = "" then g
        else ingest_function_call g c fc.caller_file fc.called (resolveCalledFile st fc)).files
        = g.files
      split <;> rfl
  | none => rfl

/-- `callStep` adds at most the caller's file path. -/
theorem paths_callStep_subset (st : SymTable) (g : Graph) (fc : CallInfo) (q : String)
    (hq : q ∈ filePaths (callStep st g fc)) : q ∈ filePaths g ∨ q = fc.caller_file := by
  have h2 : filePaths (callStep st g fc) =
      (mergeFileNode (match fc.caller with
        | some c => if c = "" then g
            else ingest_function_call g c fc.caller_file fc.called (resolveCalledFile st fc)
        | none => g).files fc.caller_file).map FileNode.path := rfl
  rw [h2, files_callStep_inner] at hq
  exact paths_of_paths_mergeFileNode hq

/-- `importStep` adds at most the importing file's path and the resolved
target. -/
theorem paths_importStep_subset (fsp : List String) (fp : String) (g : Graph) (imp : String)
    (q : String) (hq : q ∈ filePaths (importStep fsp fp g imp)) :
    q ∈ filePaths g ∨ q = fp ∨ resolveImport fsp imp = some q := by
  unfold importStep at hq
  split at hq
  · next t ht =>
      unfold ingest_import at hq
      split at hq
      · exact Or.inl hq
      · rcases paths_of_paths_mergeFileNode hq with h2 | h2
        · rcases paths_of_paths_mergeFileNode h2 with h3 | h3
          · exact Or.inl h3
          · exact Or.inr (Or.inl h3)
        · subst h2
          exact Or.inr (Or.inr ht)
  · exact Or.inl hq

/-- `classStep` adds at most the class's file path. -/
theorem paths_classStep_subset (g : Graph) (c : ClassInfo) (q : String)
    (hq : q ∈ filePaths (classStep g c)) : q ∈ filePaths g ∨ q = c.file := by
  unfold classStep at hq
  have h2 : filePaths (c.bases.foldl (fun g b =>
      if b = "" then g else ingest_class_extends g c.name c.file b none) (ingest_class g c)) =
      filePaths (ingest_class g c) :=
    foldl_sel_eq filePaths _ c.bases (fun g2 b _ => by split <;> rfl) _
  rw [h2] at hq
  exact paths_of_paths_mergeFileNode hq

/-- `ingest_function` adds at most the function's file path. -/
theorem paths_ingest_function_subset (g : Graph) (fn : FuncInfo) (q : String)
    (hq : q ∈ filePaths (ingest_function g fn)) : q ∈ filePaths g ∨ q = fn.file :=
  paths_of_paths_mergeFileNode hq

/-- `ingest_file` adds at most the record's own path. -/
theorem paths_ingest_file_subset (g : Graph) (fi : FileInfo) (q : String)
    (hq : q ∈ filePaths (ingest_file g fi)) : q ∈ filePaths g ∨ q = fi.path := by
  show q ∈ filePaths g ∨ q = fi.path
  have h2 : filePaths (ingest_file g fi) =
      (upsertFileName g.files fi.path fi.name).map FileNode.path := rfl
  rw [h2, paths_upsertFileName] at hq
  split at hq
  · exact Or.inl hq
  · rcases List.mem_append.mp hq with h3 | h3
    · exact Or.inl h3
    · simp at h3
      exact Or.inr h3

/-- Everything pass 2 writes as a File node path for one record: the
record's own path, a class file, a function file, a resolved import
target, or a call site's caller file. -/
theorem ingest_parsed_paths_subset (fs : List String) (st : SymTable) (g : Graph)
    (p : ParseResult) (q : String) (hq : q ∈ filePaths (ingest_parsed fs st g p)) :
    q ∈ filePaths g ∨ q = p.file.path ∨ (∃ c ∈ p.classes, q = c.file) ∨
    (∃ fn ∈ p.functions, q = fn.file) ∨
    (∃ imp ∈ p.imports, resolveImport fs imp = some q) ∨
    (∃ fc ∈ p.function_calls, q = fc.caller_file) := by
  have hq2 : q ∈ filePaths (p.function_calls.foldl (callStep st)
      (p.imports.foldl (importStep fs p.file.path)
        (p.endpoints.foldl ingest_endpoint
          (p.functions.foldl ingest_function
            (p.classes.foldl classStep (ingest_file g p.file)))))) := hq
  rcases foldl_paths_subset (callStep st) (fun fc q => q = fc.caller_file)
      (fun g2 fc q2 h => paths_callStep_subset st g2 fc q2 h) _ _ q hq2 with hq3 | ⟨fc, hfc, hn⟩
  swap
  · exact Or.inr (Or.inr (Or.inr (Or.inr (Or.inr ⟨fc, hfc, hn⟩))))
  rcases foldl_paths_subset (importStep fs p.file.path)
      (fun imp q => q = p.file.path ∨ resolveImport fs imp = some q)
      (fun g2 imp q2 h => by
        rcases paths_importStep_subset fs p.file.path g2 imp q2 h with h2 | h2 | h2
        · exact Or.inl h2
        · exact Or.inr (Or.inl h2)
        · exact Or.inr (Or.inr h2)) _ _ q hq3 with hq4 | ⟨imp, himp, hn⟩
  swap
  · rcases hn with hn | hn
    · exact Or.inr (Or.inl hn)
    · exact Or.inr (Or.inr (Or.inr (Or.inr (Or.inl ⟨imp, himp, hn⟩))))
  rw [foldl_sel_eq filePaths ingest_endpoint p.endpoints (fun g2 ep _ => rfl)] at hq4
  rcases foldl_paths_subset ingest_function (fun fn q => q = fn.file)
      (fun g2 fn q2 h => paths_ingest_function_subset g2 fn q2 h) _ _ q hq4 with hq5 | ⟨fn, hfn, hn⟩
  swap
  · exact Or.inr (Or.inr (Or.inr (Or.inl ⟨fn, hfn, hn⟩)))
  rcases foldl_paths_subset classStep (fun c q => q = c.file)
      (fun g2 c q2 h => paths_classStep_subset g2 c q2 h) _ _ q hq5 with hq6 | ⟨c, hc, hn⟩
  swap
  · exact Or.inr (Or.inr (Or.inl ⟨c, hc, hn⟩))
  rcases paths_ingest_file_subset g p.file q hq6 with hq7 | hq7
  · exact Or.inl hq7
  · exact Or.inr (Or.inl hq7)

/-- `upsertFileName` keeps the path list duplicate-free. -/
theorem nodup_paths_upsertFileName (l : List FileNode) (p n : String)
    (h : (l.map FileNode.path).Nodup) :
    ((upsertFileName l p n).map FileNode.path).Nodup := by
  rw [paths_upsertFileName]
  split
  · exact h
  · next hp =>
      refine List.nodup_append.mpr ⟨h, by simp, ?_⟩
      intro a ha hb
      simp at hb
      subst hb
      rcases List.mem_map.mp ha with ⟨nd, hnd, hq⟩
      exact hp (List.any_eq_true.mpr ⟨nd, hnd, by simp [hq]⟩)

/-- Pass 2 keeps the File node path list duplicate-free. -/
theorem nodup_filePaths_ingest_parsed (fs : List String) (st : SymTable) (g : Graph)
    (p : ParseResult) (h : (filePaths g).Nodup) :
    (filePaths (ingest_parsed fs st g p)).Nodup := by
  show (filePaths (p.function_calls.foldl (callStep st)
    (p.imports.foldl (importStep fs p.file.path)
      (p.endpoints.foldl ingest_endpoint
        (p.functions.foldl ingest_function
          (p.classes.foldl classStep (ingest_file g p.file))))))).Nodup
  refine foldl_pred_pres (callStep st) (fun g2 => (filePaths g2).Nodup) ?_ _ _ ?_
  · intro g2 fc h2
    have he : filePaths (callStep st g2 fc) =
        (mergeFileNode (match fc.caller with
          | some c => if c = "" then g2
              else ingest_function_call g2 c fc.caller_file fc.called (resolveCalledFile st fc)
          | none => g2).files fc.caller_file).map FileNode.path := rfl
    rw [he, files_callStep_inner]
    exact nodup_paths_mergeFileNode _ h2
  refine foldl_pred_pres (importStep fs p.file.path) (fun g2 => (filePaths g2).Nodup) ?_ _ _ ?_
  · intro g2 imp h2
    unfold importStep
    split
    · unfold ingest_import
      split
      · exact h2
      · exact nodup_paths_mergeFileNode _ (nodup_paths_mergeFileNode _ h2)
    · exact h2
  refine foldl_pred_pres ingest_endpoint (fun g2 => (filePaths g2).Nodup) ?_ _ _ ?_
  · intro g2 ep h2
    exact h2
  refine foldl_pred_pres ingest_function (fun g2 => (filePaths g2).Nodup) ?_ _ _ ?_
  · intro g2 fn h2
    exact nodup_paths_mergeFileNode _ h2
  refine foldl_pred_pres classStep (fun g2 => (filePaths g2).Nodup) ?_ _ _ ?_
  · intro g2 c h2
    show (filePaths (classStep g2 c)).Nodup
    unfold classStep
    have he : filePaths (c.bases.foldl (fun g b =>
        if b = "" then g else ingest_class_extends g c.name c.file b none) (ingest_class g2 c)) =
        filePaths (ingest_class g2 c) :=
      foldl_sel_eq filePaths _ c.bases (fun g3 b _ => by split <;> rfl) _
    rw [he]
    exact nodup_paths_mergeFileNode _ h2
  exact nodup_paths_upsertFileName g.files p.file.path p.file.name h

/-- A full run keeps the File node path list duplicate-free. -/
theorem nodup_filePaths_run (env : RepoEnv) (g : Graph) (h : (filePaths g).Nodup) :
    (filePaths (run_ingestion env g false)).Nodup := by
  show (filePaths (((pass1 env.loadedLangs env.walkFiles).1).foldl
    (fun g2 p2 => if false then g2
      else ingest_parsed env.fsPaths (pass1 env.loadedLangs env.walkFiles).2 g2 p2) g)).Nodup
  exact foldl_pred_pres _ (fun g2 => (filePaths g2).Nodup)
    (fun g2 p2 hh => nodup_filePaths_ingest_parsed _ _ g2 p2 hh) _ g h

/-- File node paths after a full run from the empty store: the relative
path of a walked recognized file, or a resolved import target. -/
theorem run_filePaths_char (env : RepoEnv) (q : String)
    (hq : q ∈ filePaths (run_ingestion env Graph.empty false)) :
    (∃ f2 ∈ env.walkFiles, extRecognized f2 = true ∧ q = relPathOf f2) ∨
    (∃ p ∈ parsedRecords env.loadedLangs env.walkFiles, ∃ imp ∈ p.imports,
      resolveImport env.fsPaths imp = some q) := by
  have hl : (pass1 env.loadedLangs env.walkFiles).1 =
      parsedRecords env.loadedLangs env.walkFiles := by rw [pass1_eq]
  have hq2 : q ∈ filePaths ((parsedRecords env.loadedLangs env.walkFiles).foldl
      (fun g2 p2 => if false then g2
        else ingest_parsed env.fsPaths (pass1 env.loadedLangs env.walkFiles).2 g2 p2)
      Graph.empty) := by
    rw [← hl]
    exact hq
  rcases foldl_paths_subset _
      (fun p2 q2 => q2 = p2.file.path ∨ (∃ c ∈ p2.classes, q2 = c.file) ∨
        (∃ fn ∈ p2.functions, q2 = fn.file) ∨
        (∃ imp ∈ p2.imports, resolveImport env.fsPaths imp = some q2) ∨
        (∃ fc ∈ p2.function_calls, q2 = fc.caller_file))
      (fun g2 p2 q2 h => by
        rcases ingest_parsed_paths_subset env.fsPaths
            (pass1 env.loadedLangs env.walkFiles).2 g2 p2 q2 h with h2 | h2
        · exact Or.inl h2
        · exact Or.inr h2) _ _ q hq2 with h2 | ⟨p2, hp2, hn⟩
  · cases h2
  rcases parsedRecords_shape env.loadedLangs env.walkFiles p2 hp2 with ⟨f2, hf2, hrec2, _, hgood⟩
  rcases hn with hn | hn | hn | hn | hn
  · exact Or.inl ⟨f2, hf2, hrec2, by rw [hn, hgood.path_eq]⟩
  · rcases hn with ⟨c, hc, hqc⟩
    exact Or.inl ⟨f2, hf2, hrec2, by rw [hqc, hgood.classes c hc]⟩
  · rcases hn with ⟨fn, hfn, hqf⟩
    exact Or.inl ⟨f2, hf2, hrec2, by rw [hqf, hgood.funcs fn hfn]⟩
  · exact Or.inr ⟨p2, hp2, hn⟩
  · rcases hn with ⟨fc, hfc, hqf⟩
    exact Or.inl ⟨f2, hf2, hrec2, by rw [hqf, hgood.calls fc hfc]⟩

/-- In a duplicate-free list, a member matches exactly one position. -/
theorem nodup_filter_length_one (l : List String) (q : String) (hnd : l.Nodup) (hq : q ∈ l) :
    (l.filter (fun x => x = q)).length = 1 := by
  induction l with
  | nil => cases hq
  | cons a as ih =>
      rcases List.nodup_cons.mp hnd with ⟨hna, hnd2⟩
      rcases List.mem_cons.mp hq with h | h
      · subst h
        have hf : as.filter (fun x => x = q) = [] := by
          rw [List.filter_eq_nil_iff]
          intro x hx
          simp only [decide_eq_true_eq]
          intro hxq
          exact hna (hxq ▸ hx)
        rw [List.filter_cons_of_pos (by simp), hf]
        rfl
      · have hne : ¬(a = q) := fun hh => hna (hh ▸ h)
        rw [List.filter_cons_of_neg (by simp [hne])]
        exact ih hnd2 h

/-- A non-member matches no position. -/
theorem not_mem_filter_length_zero (l : List String) (q : String) (hq : q ∉ l) :
    (l.filter (fun x => x = q)).length = 0 := by
  rw [List.length_eq_zero, List.filter_eq_nil_iff]
  intro x hx
  simp only [decide_eq_true_eq]
  intro hxq
  exact hq (hxq ▸ hx)

/-- Filtering File nodes by a path matches filtering the path list. -/
theorem length_filter_path (l : List FileNode) (q : String) :
    (l.filter (fun nd => nd.path = q)).length =
      ((l.map FileNode.path).filter (fun x => x = q)).length := by
  induction l with
  | nil => rfl
  | cons nd l ih =>
      by_cases h : nd.path = q
      · rw [List.filter_cons_of_pos (by simp [h]), List.map_cons,
          List.filter_cons_of_pos (by simp [h]), List.length_cons, List.length_cons, ih]
      · rw [List.filter_cons_of_neg (by simp [h]), List.map_cons,
          List.filter_cons_of_neg (by simp [h]), ih]

/-- Claim C4: after a full run from the empty store over a tree with
distinct relative paths whose import targets all resolve to walked
recognized files, a walked file has exactly one File node when its
extension is recognized and none otherwise, extraction success playing no
role. -/
theorem claim_C4_file_coverage (env : RepoEnv)
    (hnodup : (env.walkFiles.map relPathOf).Nodup)
    (himp : ∀ p ∈ parsedRecords env.loadedLangs env.walkFiles, ∀ imp ∈ p.imports,
      ∀ t ∈ (resolveImport env.fsPaths imp).toList,
        ∃ f2 ∈ env.walkFiles, extRecognized f2 = true ∧ t = relPathOf f2)
    (f : SourceFile) (hf : f ∈ env.walkFiles) :
    (extRecognized f = true →
      ((run_ingestion env Graph.empty false).files.filter
        (fun nd => nd.path = relPathOf f)).length = 1) ∧
    (extRecognized f = false →
      ((run_ingestion env Graph.empty false).files.filter
        (fun nd => nd.path = relPathOf f)).length = 0) := by
  constructor
  · intro hrec
    have hmem : relPathOf f ∈ filePaths (run_ingestion env Graph.empty false) := by
      refine run_pred_mem env Graph.empty (fun g2 => relPathOf f ∈ filePaths g2)
        (fun g2 p2 h => (gsub_ingest_parsed _ _ g2 p2).files _ h) _
        (mem_parsedRecords env.loadedLangs env.walkFiles f hf hrec) (fun g2 => ?_)
      have h := ingest_parsed_filepath_mem env.fsPaths
        (pass1 env.loadedLangs env.walkFiles).2 g2 (parseFileOrDeg env.loadedLangs f)
      rwa [(good_parseFileOrDeg env.loadedLangs f).path_eq] at h
    rw [length_filter_path]
    exact nodup_filter_length_one _ _ (nodup_filePaths_run env Graph.empty List.nodup_nil) hmem
  · intro hrec
    rw [length_filter_path]
    refine not_mem_filter_length_zero _ _ ?_
    intro hmem
    have hchar := run_filePaths_char env (relPathOf f) hmem
    have himg : ∃ f2 ∈ env.walkFiles, extRecognized f2 = true ∧ relPathOf f = relPathOf f2 := by
      rcases hchar with h | ⟨p2, hp2, imp, himp2, hres⟩
      · exact h
      · rcases himp p2 hp2 imp himp2 (relPathOf f)
            (by rw [hres]; exact List.mem_singleton.mpr rfl) with ⟨f2, hf2, hrec2, hq⟩
        exact ⟨f2, hf2, hrec2, hq⟩
    rcases himg with ⟨f2, hf2, hrec2, heq⟩
    have hsame : f = f2 := List.inj_on_of_nodup_map hnodup hf hf2 heq
    rw [hsame, hrec2] at hrec
    cases hrec

/-! ## Witnesses -/

/-- Witness for C1 on the concrete two-file tree. -/
theorem claim_C1_witness :
    (⟨"helper", "a.py"⟩ : FuncKey) ∈ (run_ingestion envW Graph.empty false).functions ∧
    (⟨"main", "b.py"⟩ : FuncKey) ∈ (run_ingestion envW Graph.empty false).functions ∧
    ((⟨"main", "b.py"⟩, ⟨"helper", "a.py"⟩) : FuncKey × FuncKey) ∈
      (run_ingestion envW Graph.empty false).calls ∧
    ((⟨"helper", "a.py"⟩, "b.py") : FuncKey × String) ∈
      (run_ingestion envW Graph.empty false).used_in :=
  claim_C1_resolution_example envW Graph.empty aFileW bFileW
    (List.Mem.head _) (List.Mem.tail _ (List.Mem.head _))
    (by decide) (by decide) (by decide) (by decide)
    [.functionDef "helper" [] [.passStmt]]
    [.functionDef "main" [] [.exprStmt (.call (.name "helper") [])]]
    rfl rfl
    [] [.passStmt] (List.Mem.head _)
    [] [.exprStmt (.call (.name "helper") [])] (List.Mem.head _)
    [] (List.Mem.head _)
    (by decide)

/-- Witness for C2 on the concrete two-file tree. -/
theorem claim_C2_witness :
    resolveCalledFile (pass1 envW.loadedLangs envW.walkFiles).2
        (⟨some "main", "b.py", "helper"⟩ : CallInfo) =
      (symLookup (pass1 envW.loadedLangs envW.walkFiles).2 "helper").getD "b.py" ∧
    ((⟨"helper", resolveCalledFile (pass1 envW.loadedLangs envW.walkFiles).2
        (⟨some "main", "b.py", "helper"⟩ : CallInfo)⟩ : FuncKey), "b.py") ∈
      (run_ingestion envW Graph.empty false).used_in :=
  claim_C2_call_resolution envW Graph.empty (by decide)
    (parseFileOrDeg envW.loadedLangs bFileW) (by decide)
    (⟨some "main", "b.py", "helper"⟩ : CallInfo) (by decide)

/-- Witness for C3 on two files both defining `run`. -/
theorem claim_C3_witness :
    ∃ v, symLookup (pass1 [] [r1FileW, r2FileW]).2 "run" = some v ∧
      (v = relPathOf r1FileW ∨ v = relPathOf r2FileW) ∧
      symLookup (pass1 [] [r1FileW, r2FileW]).2 "run" =
        lastAssign "run" (funcPairs [] [r1FileW, r2FileW]) :=
  claim_C3_collision_determinism [] [r1FileW, r2FileW] r1FileW r2FileW
    (List.Mem.head _) (by decide) "run" ⟨"run", "r1.py"⟩ (by decide) rfl (by decide)

/-- Witness for C4: a broken recognized file still gets exactly one File
node; an unrecognized file gets none. -/
theorem claim_C4_witness :
    ((run_ingestion envC4W Graph.empty false).files.filter
      (fun nd => nd.path = relPathOf degFileW)).length = 1 ∧
    ((run_ingestion envC4W Graph.empty false).files.filter
      (fun nd => nd.path = relPathOf txtFileW)).length = 0 :=
  ⟨(claim_C4_file_coverage envC4W (by decide) (by decide) degFileW (List.Mem.head _)).1
      (by decide),
   (claim_C4_file_coverage envC4W (by decide) (by decide) txtFileW
      (List.Mem.tail _ (List.Mem.head _))).2 (by decide)⟩

/-- Witness for C6: `pkg.util` resolves against an existing `pkg/util.py`
and yields the edge; with an empty tree nothing is recorded. -/
theorem claim_C6_witness :
    ("pkg/mod.py", "pkg/util.py") ∈
      (ingest_parsed ["pkg/util.py"] [] Graph.empty impWitP).importEdges ∧
    (ingest_parsed [] [] Graph.empty impWitP).importEdges = Graph.empty.importEdges :=
  ⟨((claim_C6_import_resolution ["pkg/util.py"] [] Graph.empty impWitP).1
      "pkg.util" (by decide) "pkg/util.py" (by decide)).2,
   (claim_C6_import_resolution [] [] Graph.empty impWitP).2 (by decide)⟩

/-- Witness for C7 on the `@router.get(...)`-decorated handler. -/
theorem claim_C7_witness :
    ["get", "post", "put", "delete", "patch"].contains "get" = true ∧
    endpointsOfDef "list_items" (relPathOf epFileW)
        [.call (.attribute (.name "router") "get") []] =
      [⟨"list_items", relPathOf epFileW, "get"⟩] ∧
    (run_ingestion envEpW Graph.empty false).endpoints.count
      ⟨"list_items", relPathOf epFileW, "get"⟩ = 1 ∧
    ((⟨"list_items", relPathOf epFileW, "get"⟩, ⟨"list_items", relPathOf epFileW⟩) :
      EndpointKey × FuncKey) ∈ (run_ingestion envEpW Graph.empty false).handled_by :=
  (claim_C7_endpoint_detection envEpW epFileW (List.Mem.head _) (by decide)
    [.functionDef "list_items" [.call (.attribute (.name "router") "get") []] [.passStmt]]
    rfl "list_items" [.call (.attribute (.name "router") "get") []] [.passStmt]
    (List.Mem.head _) "get").1 (by decide)

/-- Witness for C9 on the concrete two-file tree. -/
theorem claim_C9_witness :
    resolveCalledFile (pass1 envW.loadedLangs envW.walkFiles).2
      (⟨some "main", "b.py", "helper"⟩ : CallInfo) ≠ "" ∧
    ("b.py" : String) ≠ "" ∧
    strOrEmpty (resolveCalledFile (pass1 envW.loadedLangs envW.walkFiles).2
        (⟨some "main", "b.py", "helper"⟩ : CallInfo)) =
      resolveCalledFile (pass1 envW.loadedLangs envW.walkFiles).2
        (⟨some "main", "b.py", "helper"⟩ : CallInfo) :=
  claim_C9_sentinel_unused envW (by decide)
    (parseFileOrDeg envW.loadedLangs bFileW) (by decide)
    (⟨some "main", "b.py", "helper"⟩ : CallInfo) (by decide)
